import Mathlib

/-!
Verification of the currency-formatter repository.

JavaScript strings are shallowly embedded as `List Char`.  Every definition
below is a direct translation of a function of the repository source
(`src/components/currency/utils.ts`, `useFormatting.ts`, `index.tsx`, and the
standalone utilities of the unnamed module containing `formatCurrency` /
`parseCurrency`).  Deviations forced by the embedding are noted in the
doc comment of the affected definition.
-/

/-- Shorthand: the character list underlying a string literal. -/
def str (s : String) : List Char := s.data

/-- Numeric value of a digit character (valid for characters matching `\d`). -/
def digitVal (c : Char) : Nat := c.toNat - 48

/-- Numeric value of an optional character, `Number(undefined)`-free variant:
only used where the source indexes into a string that is known nonempty. -/
def digitValOpt : Option Char → Nat
  | some c => digitVal c
  | none => 0

/-- Decimal value of a digit string read most-significant first
(`Number("123") = 123` on all-digit strings). -/
def digitsToNat (l : List Char) : Nat :=
  l.foldl (fun n c => n * 10 + digitVal c) 0

/-- Least-significant-first digit characters of a positive natural number;
fuel-driven so that it reduces in the kernel (the fuel `n` always
suffices, since `n / 10 < n` for `n > 0`). -/
def natToDigitsAux : Nat → Nat → List Char
  | 0, _ => []
  | fuel + 1, n =>
    if n = 0 then []
    else Char.ofNat (n % 10 + 48) :: natToDigitsAux fuel (n / 10)

/-- Decimal digit characters of a natural number, most-significant first
(the JS `Number.prototype.toString` on a non-negative integer). -/
def natToDigits (n : Nat) : List Char :=
  if n = 0 then ['0'] else (natToDigitsAux n n).reverse

/-- JS `charIsNumber` from utils.ts: `!!(char || "").match(/\d/)`. -/
def charIsNumber : Option Char → Bool
  | some c => c.isDigit
  | none => false

/-- JS `str.replace(c, c2)` for a single-character search string:
replaces the first occurrence only. -/
def jsReplaceFirstChar (c c2 : Char) : List Char → List Char
  | [] => []
  | x :: xs => if x = c then c2 :: xs else x :: jsReplaceFirstChar c c2 xs

/-- JS `str.replace(c, "")` for a single-character search string:
removes the first occurrence only. -/
def jsRemoveFirstChar (c : Char) : List Char → List Char
  | [] => []
  | x :: xs => if x = c then xs else x :: jsRemoveFirstChar c xs

/-- JS `str.split(sep)[0]` for a single-character separator. -/
def jsSplitPart0 (c : Char) (l : List Char) : List Char :=
  l.takeWhile (fun x => x ≠ c)

/-- JS `str.split(sep)[1] || ""` for a single-character separator:
the segment between the first and second occurrence of `sep`
(empty when `sep` does not occur). -/
def jsSplitPart1 (c : Char) (l : List Char) : List Char :=
  match l.dropWhile (fun x => x ≠ c) with
  | [] => []
  | _ :: rest => rest.takeWhile (fun x => x ≠ c)

/-- JS `str.split(sep)` for a single-character separator. -/
def jsSplitChar (c : Char) : List Char → List (List Char)
  | [] => [[]]
  | x :: xs =>
    match jsSplitChar c xs with
    | [] => [[x]]
    | h :: t => if x = c then [] :: h :: t else (x :: h) :: t

/-- JS `str.split(sep).join("")` for a single-character separator:
removes every occurrence of `sep`. -/
def jsRemoveAllChar (c : Char) (l : List Char) : List Char :=
  l.filter (fun x => x ≠ c)

/-- Auxiliary downward scan for `jsLastIndexOf`. -/
def lastIdxAux (hay needle : List Char) : Nat → Int
  | 0 => if needle.isPrefixOf hay then (0 : Int) else -1
  | j + 1 =>
    if needle.isPrefixOf (hay.drop (j + 1)) then ((j + 1 : Nat) : Int)
    else lastIdxAux hay needle j

/-- JS `hay.lastIndexOf(needle)`: the largest index at which `needle`
occurs in `hay` (`hay.length` is a legal answer for an empty needle),
`-1` when there is no occurrence. -/
def jsLastIndexOf (hay needle : List Char) : Int :=
  lastIdxAux hay needle hay.length

/-- Auxiliary upward scan for `jsIndexOfFrom` (fuel-driven; the fuel passed
by `jsIndexOfFrom` always suffices to reach the end of the haystack). -/
def idxFromAux (hay needle : List Char) : Nat → Nat → Int
  | 0, _ => -1
  | fuel + 1, j =>
    if j > hay.length then -1
    else if needle.isPrefixOf (hay.drop j) then (j : Int)
    else idxFromAux hay needle fuel (j + 1)

/-- JS `hay.indexOf(needle, start)` for a nonempty needle: smallest index
`≥ start` at which `needle` occurs, else `-1`. -/
def jsIndexOfFrom (hay needle : List Char) (start : Nat) : Int :=
  idxFromAux hay needle (hay.length + 1) start

/-- JS `str.substring(a, b)` (swaps the endpoints when `a > b`,
clamps to the string length). -/
def jsSubstring (l : List Char) (a b : Nat) : List Char :=
  (l.take (max a b)).drop (min a b)

/-- JS `str.startsWith(p)`. -/
def jsStartsWith (l p : List Char) : Bool := p.isPrefixOf l

/-- JS `str.endsWith(s)`. -/
def jsEndsWith (l s : List Char) : Bool := s.isSuffixOf l

/-- `splitString` from utils.ts: `[str.substring(0, index), str.substring(index)]`. -/
def splitString (l : List Char) (index : Nat) : List Char × List Char :=
  (l.take index, l.drop index)

/-- `fixLeadingZero` from utils.ts, on the string case (`""` maps to `""`;
the `undefined` input of the TS signature is not representable here). -/
def fixLeadingZero (numStr : List Char) : List Char :=
  if numStr = [] then numStr
  else
    let isNegative := numStr.head? = some '-'
    let numStr1 := if isNegative then numStr.drop 1 else numStr
    let beforeDecimal0 := (jsSplitPart0 '.' numStr1).dropWhile (fun c => c = '0')
    let beforeDecimal := if beforeDecimal0 = [] then ['0'] else beforeDecimal0
    let afterDecimal := jsSplitPart1 '.' numStr1
    (if isNegative then ['-'] else []) ++ beforeDecimal ++
      (if afterDecimal = [] then [] else '.' :: afterDecimal)

/-- `limitToScale` from utils.ts: the loop `for i in [0, scale)` appending
`numStr[i] || filler`, where `filler` is `"0"` under `fixedDecimalScale`
and the empty string otherwise. -/
def limitToScale : List Char → Nat → Bool → List Char
  | _, 0, _ => []
  | [], k + 1, fx => if fx then '0' :: limitToScale [] k fx else []
  | c :: cs, k + 1, fx => c :: limitToScale cs k fx

/-- One step of the integer-part reduce of `roundToPrecision`:
`(roundedStr, current, idx) => roundedStr.length > idx ?
(Number(roundedStr[0]) + Number(current)).toString() + roundedStr.substring(1)
: current + roundedStr`. -/
def carryStep (acc : List Char) (cur : Char) (idx : Nat) : List Char :=
  if acc.length > idx then
    natToDigits (digitValOpt acc.head? + digitVal cur) ++ acc.tail
  else
    cur :: acc

/-- The integer-part reduce of `roundToPrecision`: fold `carryStep` over the
reversed integer digits, starting from the integer part of the rounded
fractional value (the pending carry). -/
def intCarry (intDigits : List Char) (carry0 : List Char) : List Char :=
  (intDigits.reverse.foldl
    (fun (p : List Char × Nat) d => (carryStep p.1 d p.2, p.2 + 1))
    (carry0, 0)).1

/-- Idealization of `parseFloat("0." + frac).toFixed(scale)` used inside
`roundToPrecision`: exact half-up decimal rounding of `0.frac` to `scale`
fractional digits, returned as the split pair (integer digits, fractional
digits).  The source computes this through IEEE-754 doubles; the exact and
the floating-point computation differ (see the claim about string-based
rounding), and no theorem below depends on this idealized step. -/
def toFixedFrac (frac : List Char) (scale : Nat) : List Char × List Char :=
  let kept := limitToScale frac scale true
  let roundUp := decide (48 + 5 ≤ (frac.getD scale '0').toNat)
  let n := digitsToNat kept + (if roundUp then 1 else 0)
  if n ≥ 10 ^ scale then
    (['1'], limitToScale (natToDigits (n - 10 ^ scale)) scale true)
  else
    (['0'], limitToScale ((List.replicate (scale - (natToDigits n).length) '0')
      ++ natToDigits n) scale true)

/-- `roundToPrecision` from utils.ts (the `parseFloat(...).toFixed(scale)`
sub-step is the idealized `toFixedFrac`, see its doc comment). -/
def roundToPrecision (numStr : List Char) (scale : Nat) (fx : Bool) :
    List Char :=
  let part0 := jsSplitPart0 '.' numStr
  let part1 := jsSplitPart1 '.' numStr
  let rounded := toFixedFrac (if part1 = [] then ['0'] else part1) scale
  let intPart := intCarry part0 rounded.1
  let decimalPart := limitToScale rounded.2 part1.length fx
  intPart ++ (if decimalPart = [] then [] else '.' :: decimalPart)

/-- The `thousandSeparator` prop: `string | boolean` of the source,
with the string case restricted to a single character. -/
inductive TS where
  | boolTrue : TS
  | boolFalse : TS
  | ch : Char → TS
deriving DecidableEq

/-- The `thousandSpacing` prop (`"2" | "2s" | "3" | "4"`). -/
inductive Spacing where
  | two : Spacing
  | twoScaled : Spacing
  | three : Spacing
  | four : Spacing
deriving DecidableEq

/-- Position predicate of the grouping regexes of `formatThousand` on an
all-digit string: a separator is inserted after the digit that has exactly
`r` digits to its right iff `sepHere spacing r`.
`"3"`: `/(\d)(?=(\d{3})+(?!\d))/g`, `"2"`: `/(\d)(?=(\d{2})+(?!\d))/g`,
`"4"`: `/(\d)(?=(\d{4})+(?!\d))/g`,
`"2s"`: `/(\d)(?=(((\d{2})+)(\d{1})(?!\d)))/g`. -/
def sepHere : Spacing → Nat → Bool
  | .two, r => r % 2 = 0 && r > 0
  | .twoScaled, r => r % 2 = 1 && r ≥ 3
  | .three, r => r % 3 = 0 && r > 0
  | .four, r => r % 4 = 0 && r > 0

/-- Core of `formatThousand`, working on the reversed digit list: the
element at reversed position `r` is preceded by a separator iff `p r`. -/
def groupGo (p : Nat → Bool) (sep : Char) : Nat → List Char → List Char
  | _, [] => []
  | r, c :: cs => (if p r then [sep] else []) ++ c :: groupGo p sep (r + 1) cs

/-- `formatThousand` (useFormatting.ts) / the thousand-separator step of
`formatCurrency`: `beforeDecimal.replace(digitalGroup, "$1" + separator)`.
The regex semantics on an all-digit string (the only call pattern: every
caller passes a cleaned digit string) is captured positionally by
`sepHere`. -/
def formatThousand (spacing : Spacing) (sep : Char) (beforeDecimal : List Char) :
    List Char :=
  (groupGo (sepHere spacing) sep 0 beforeDecimal.reverse).reverse

/-- Options record of the standalone `formatCurrency` with its source
default values. -/
structure FmtOpts where
  decimalScale : Option Nat := none
  decimalSeparator : Char := '.'
  thousandSeparator : TS := TS.ch ','
  thousandSpacing : Spacing := Spacing.three
  pfx : List Char := []
  sfx : List Char := []
  fixedDecimalScale : Bool := false
  allowNegative : Bool := true

/-- Truthiness of the `decimalScale && fixedDecimalScale` JS expression. -/
def scaleTruthy (scale : Option Nat) : Bool :=
  match scale with
  | some n => n ≠ 0
  | none => false

/-- Resolution of `typeof thousandSeparator === "boolean" ? "," :
thousandSeparator` (both boolean values resolve to `","`). -/
def parseResolvedTS : TS → Char
  | .boolTrue => ','
  | .boolFalse => ','
  | .ch c => c

/-- Truthiness of the `thousandSeparator` value and its resolved character
in `formatCurrency` (`true` resolves to `","`; `false` is falsy; a
character is truthy). -/
def fmtResolvedTS : TS → Option Char
  | .boolTrue => some ','
  | .boolFalse => none
  | .ch c => some c

/-- Keep only the first `.`: the `decimalIndex` block of `formatCurrency`
(`numStr.substring(0, i + 1) + numStr.substring(i + 1).replace(/\./g, "")`). -/
def keepFirstDot : List Char → List Char
  | [] => []
  | x :: xs =>
    if x = '.' then x :: xs.filter (fun c => c ≠ '.')
    else x :: keepFirstDot xs

/-- `formatCurrency` from the standalone utilities module, on the string
case of its `value` argument (`null`/`undefined` and the
`number`-to-string conversion are outside the embedding; a number input is
passed as its decimal digit string). -/
def formatCurrency (value : List Char) (o : FmtOpts) : List Char :=
  if value = [] then []
  else
    let hasNegation := value.head? = some '-'
    let numStr0 := if hasNegation then value.drop 1 else value
    let addNegation := hasNegation && o.allowNegative
    let numStr1 := numStr0.filter (fun c => c.isDigit || c = '.')
    let numStr2 := keepFirstDot numStr1
    let numStr3 :=
      match o.decimalScale with
      | some k => roundToPrecision numStr2 k o.fixedDecimalScale
      | none => numStr2
    let parts0 := jsSplitPart0 '.' numStr3
    let beforeDecimal0 := if parts0 = [] then ['0'] else parts0
    let afterDecimal0 := jsSplitPart1 '.' numStr3
    let afterDecimal :=
      match o.decimalScale with
      | some k => limitToScale afterDecimal0 k o.fixedDecimalScale
      | none => afterDecimal0
    let beforeDecimal :=
      match fmtResolvedTS o.thousandSeparator with
      | some sep => formatThousand o.thousandSpacing sep beforeDecimal0
      | none => beforeDecimal0
    let hasDecimalPart :=
      numStr3.contains '.' || (scaleTruthy o.decimalScale && o.fixedDecimalScale)
    let result :=
      beforeDecimal ++
        (if hasDecimalPart then o.decimalSeparator :: afterDecimal else [])
    if addNegation then '-' :: (o.pfx ++ result ++ o.sfx)
    else o.pfx ++ result ++ o.sfx

/-- Exact decimal number as a scaled integer: the value `num / 10 ^ pw`.
Numbers of this codebase are always exact decimals, so this represents the
mathematical value of every `parseFloat` result used in the claims without
the non-computable detour through `ℚ`. -/
structure JSNum where
  num : Int
  pw : Nat
deriving DecidableEq

/-- JS `parseFloat` restricted to the grammar
`[+-]? digits? (. digits?)?` followed by arbitrary ignored text
(whitespace skipping and exponents never arise in this codebase's inputs);
`none` models `NaN`, `some q` the exact decimal value `q.num / 10 ^ q.pw`. -/
def jsParseFloat (l : List Char) : Option JSNum :=
  let (neg, rest) :=
    match l with
    | '-' :: t => (true, t)
    | '+' :: t => (false, t)
    | t => (false, t)
  let intPart := rest.takeWhile Char.isDigit
  let rest2 := rest.drop intPart.length
  let fracPart :=
    match rest2 with
    | '.' :: t => t.takeWhile Char.isDigit
    | _ => []
  if intPart = [] && fracPart = [] then none
  else
    let mag : Nat := digitsToNat intPart * 10 ^ fracPart.length +
      digitsToNat fracPart
    some { num := if neg then -(mag : Int) else (mag : Int),
           pw := fracPart.length }

/-- Options record of the standalone `parseCurrency` with source defaults. -/
structure ParseOpts where
  decimalSeparator : Char := '.'
  thousandSeparator : TS := TS.ch ','
  pfx : List Char := []
  sfx : List Char := []

/-- Result record of `parseCurrency`; `floatValue : Option JSNum` with
`none` modelling `NaN`. -/
structure PCResult where
  value : List Char
  floatValue : Option JSNum
  formattedValue : List Char
deriving DecidableEq

/-- The floatValue expression of `parseCurrency`:
`parseFloat(value) || NaN` — the `|| NaN` turns the (falsy) result `0`
into `NaN` as well. -/
def parseFloatOrNaN (l : List Char) : Option JSNum :=
  match jsParseFloat l with
  | some q => if q.num = 0 then none else some q
  | none => none

/-- `parseCurrency` from the standalone utilities module. -/
def parseCurrency (formattedValue : List Char) (o : ParseOpts) : PCResult :=
  if formattedValue = [] then
    { value := [], floatValue := none, formattedValue := [] }
  else
    let v0 := formattedValue
    let isNegative := v0.head? = some '-'
    let v1 := if isNegative then v0.drop 1 else v0
    let v2 :=
      if o.pfx ≠ [] && jsStartsWith v1 o.pfx then v1.drop o.pfx.length else v1
    let v3 :=
      if o.sfx ≠ [] && jsEndsWith v2 o.sfx then
        v2.take (v2.length - o.sfx.length)
      else v2
    let tSep := parseResolvedTS o.thousandSeparator
    let v4 := jsRemoveAllChar tSep v3
    let v5 :=
      if o.decimalSeparator ≠ '.' then
        jsReplaceFirstChar o.decimalSeparator '.' v4
      else v4
    let v6 := v5.filter (fun c => c.isDigit || c = '.')
    let v7 := if isNegative then '-' :: v6 else v6
    { value := v7, floatValue := parseFloatOrNaN v7, formattedValue := formattedValue }


/-- The `mask` prop: `string | string[]`. -/
inductive Mask where
  | strM : List Char → Mask
  | arr : List (List Char) → Mask
deriving DecidableEq

/-- Configuration and value props of the `CurrencyFormat` component and its
`useFormatting` hook, with the source default values.  The
`format`-as-function and custom `removeFormatting` props are functions and
are modelled as absent (`format : Option (List Char)` covers the
pattern-string case and the numeric case). -/
structure CFConfig where
  decimalSeparator : Char := '.'
  thousandSeparator : TS := TS.ch ','
  thousandSpacing : Spacing := Spacing.three
  decimalScale : Option Nat := none
  fixedDecimalScale : Bool := false
  format : Option (List Char) := none
  mask : Mask := Mask.strM [' ']
  pfx : List Char := []
  sfx : List Char := []
  allowNegative : Bool := true
  allowEmptyFormatting : Bool := false
  valueProp : Option (List Char) := none
  defaultValueProp : Option (List Char) := none
  isNumericString : Bool := false

/-- The resolved thousand separator of `getSeparators`: `true` resolves to
`","`, `false` stays falsy (`none`), a character stays itself. -/
def resolvedTSep (cfg : CFConfig) : Option Char :=
  match cfg.thousandSeparator with
  | .boolTrue => some ','
  | .boolFalse => none
  | .ch c => some c

/-- `getMaskAtIndex`: the whole mask string in the string case, else
`mask[index] || " "`. -/
def getMaskAtIndex (cfg : CFConfig) (index : Nat) : List Char :=
  match cfg.mask with
  | .strM s => s
  | .arr ss =>
    let e := ss.getD index []
    if e = [] then [' '] else e

/-- Character test of the regex built by `getNumberRegex`:
`\d` possibly extended with the escaped decimal separator
(`decSep && decimalScale !== 0 && !ignoreDecimalSeparator && !format`). -/
def numRegexMatches (cfg : CFConfig) (ignoreDecimalSeparator : Bool) (c : Char) :
    Bool :=
  c.isDigit ||
    (decide (cfg.decimalScale ≠ some 0) && !ignoreDecimalSeparator &&
      decide (cfg.format = none) && decide (c = cfg.decimalSeparator))

/-- `numRegexMatches` on an optional character (an out-of-range JS index
yields `undefined`, which matches nothing). -/
def numRegexMatchesOpt (cfg : CFConfig) (i : Bool) : Option Char → Bool
  | some c => numRegexMatches cfg i c
  | none => false

/-- Result record of `splitDecimal`. -/
structure SplitDecimalResult where
  beforeDecimal : List Char
  afterDecimal : List Char
  hasNegation : Bool
  addNegation : Bool
deriving DecidableEq

/-- `splitDecimal` from useFormatting.ts. -/
def splitDecimal (cfg : CFConfig) (numStr : List Char) : SplitDecimalResult :=
  let hasNegation := numStr.head? = some '-'
  let addNegation := hasNegation && cfg.allowNegative
  let numStr1 := jsRemoveFirstChar '-' numStr
  { beforeDecimal := jsSplitPart0 '.' numStr1
    afterDecimal := jsSplitPart1 '.' numStr1
    hasNegation := hasNegation
    addNegation := addNegation }

/-- The `firstDecimalIndex` block of `getFloatString`: keep everything up
to the first `.`, and delete every occurrence of the decimal separator
after it (`num.substring(0, i) + "." + num.substring(i + 1).replace(/decSep/g, "")`). -/
def keepFirstDotRemoving (d : Char) : List Char → List Char
  | [] => []
  | x :: xs =>
    if x = '.' then '.' :: jsRemoveAllChar d xs
    else x :: keepFirstDotRemoving d xs

/-- `getFloatString` from useFormatting.ts. -/
def getFloatString (cfg : CFConfig) (num : List Char) : List Char :=
  let hasNegation := num.head? = some '-'
  let num1 := if hasNegation then jsRemoveFirstChar '-' num else num
  let num2 := jsReplaceFirstChar cfg.decimalSeparator '.'
    (num1.filter (numRegexMatches cfg false))
  let num3 := keepFirstDotRemoving cfg.decimalSeparator num2
  if hasNegation then '-' :: num3 else num3

/-- Placeholder walk of `formatWithPattern`:
`formattedNumberAry[i] = numStr[hashCount] || getMaskAtIndex(hashCount)`. -/
def fwpGo (cfg : CFConfig) (s : List Char) : List Char → Nat → List Char
  | [], _ => []
  | c :: cs, h =>
    if c = '#' then
      (match s.get? h with
       | some ch => [ch]
       | none => getMaskAtIndex cfg h) ++ fwpGo cfg s cs (h + 1)
    else c :: fwpGo cfg s cs h

/-- `formatWithPattern` from useFormatting.ts (returns its input unchanged
when `format` is not a string). -/
def formatWithPattern (cfg : CFConfig) (numStr : List Char) : List Char :=
  match cfg.format with
  | some f => fwpGo cfg numStr f 0
  | none => numStr

/-- `formatAsNumber` from useFormatting.ts. -/
def formatAsNumber (cfg : CFConfig) (numStr : List Char) : List Char :=
  let hasDecimalSeparator :=
    numStr.contains '.' || (scaleTruthy cfg.decimalScale && cfg.fixedDecimalScale)
  let sd := splitDecimal cfg numStr
  let beforeDecimal0 :=
    if sd.beforeDecimal = [] && hasDecimalSeparator then ['0']
    else sd.beforeDecimal
  let afterDecimal :=
    match cfg.decimalScale with
    | some k => limitToScale sd.afterDecimal k cfg.fixedDecimalScale
    | none => sd.afterDecimal
  let beforeDecimal1 :=
    match resolvedTSep cfg with
    | some sep => formatThousand cfg.thousandSpacing sep beforeDecimal0
    | none => beforeDecimal0
  let beforeDecimal2 := cfg.pfx ++ beforeDecimal1
  let afterDecimal2 := afterDecimal ++ cfg.sfx
  let beforeDecimal3 := if sd.addNegation then '-' :: beforeDecimal2 else beforeDecimal2
  beforeDecimal3 ++ (if hasDecimalSeparator then [cfg.decimalSeparator] else []) ++
    afterDecimal2

/-- `removePrefixAndSuffix` from useFormatting.ts (the suffix test is the
source's `lastIndexOf`-equals-`length - suffix.length` check). -/
def removePrefixAndSuffix (cfg : CFConfig) (val : List Char) : List Char :=
  if cfg.format = none && val ≠ [] then
    let isNegative := val.head? = some '-'
    let v1 := if isNegative then val.drop 1 else val
    let v2 :=
      if cfg.pfx ≠ [] && jsStartsWith v1 cfg.pfx then v1.drop cfg.pfx.length
      else v1
    let suffixLastIndex := jsLastIndexOf v2 cfg.sfx
    let v3 :=
      if cfg.sfx ≠ [] && suffixLastIndex ≠ -1 &&
          suffixLastIndex = (v2.length : Int) - cfg.sfx.length then
        v2.take (v2.length - cfg.sfx.length)
      else v2
    if isNegative then '-' :: v3 else v3
  else val

/-- The literal-segment walk of `removePatternFormatting`; a failed
`indexOf` discards the accumulator and returns the whole input (the
source's `numStr = val; break`). -/
def rpfGo (val : List Char) : List (List Char) → Nat → List Char → List Char
  | [], start, acc => acc ++ val.drop start
  | part :: rest, start, acc =>
    match jsIndexOfFrom val part start with
    | .negSucc _ => val
    | .ofNat idx => rpfGo val rest (idx + part.length) (acc ++ jsSubstring val start idx)

/-- `removePatternFormatting` from useFormatting.ts (only called with a
string `format`; the pattern is passed explicitly). -/
def removePatternFormatting (f : List Char) (val : List Char) : List Char :=
  let formatArray := (jsSplitChar '#' f).filter (fun p => p ≠ [])
  (rpfGo val formatArray 0 []).filter Char.isDigit

/-- `removeFormatting` from useFormatting.ts (the `removeFormattingProp`
function case and the digit-extraction fallback both require a
function-valued `format` and are outside the embedding). -/
def removeFormatting (cfg : CFConfig) (val : List Char) : List Char :=
  if val = [] then val
  else
    match cfg.format with
    | none => getFloatString cfg (removePrefixAndSuffix cfg val)
    | some f => removePatternFormatting f val

/-- `formatNumString` from useFormatting.ts. -/
def formatNumString (cfg : CFConfig) (value : List Char) : List Char :=
  if value = [] then
    if cfg.allowEmptyFormatting then
      match cfg.format with
      | some _ => formatWithPattern cfg []
      | none => cfg.pfx ++ cfg.sfx
    else []
  else if value = ['-'] && cfg.format = none then ['-']
  else
    match cfg.format with
    | some _ => formatWithPattern cfg value
    | none => formatAsNumber cfg value

/-- `formatNegation` from useFormatting.ts: `(-)` tests for one negation,
`(-)(.)*(-)` for a double negation (at least two `-` characters). -/
def formatNegation (cfg : CFConfig) (value : List Char) : List Char :=
  let hasNegation := value.contains '-'
  let removeNegationFlag := 2 ≤ (value.filter (fun c => c = '-')).length
  let value1 := value.filter (fun c => c ≠ '-')
  if hasNegation && !removeNegationFlag && cfg.allowNegative then '-' :: value1
  else value1

/-- `formatInput` from useFormatting.ts. -/
def formatInput (cfg : CFConfig) (value : List Char) : List Char :=
  let v1 := if cfg.format = none then formatNegation cfg value else value
  formatNumString cfg (removeFormatting cfg v1)

/-- `formatValueProp` from useFormatting.ts, on string-valued props (a
number-valued prop arrives as its decimal string with
`isNumericString := true`). -/
def formatValueProp (cfg : CFConfig) : List Char :=
  match cfg.valueProp <|> cfg.defaultValueProp with
  | none => []
  | some value =>
    let value1 :=
      if cfg.isNumericString && decide (cfg.format = none) then
        match cfg.decimalScale with
        | some k => roundToPrecision value k cfg.fixedDecimalScale
        | none => value
      else value
    if cfg.isNumericString then formatNumString cfg value1
    else formatInput cfg value1

/-- The two configuration errors `validateProps` can throw. -/
inductive ConfigError where
  | sepCollision : ConfigError
  | maskDigit : ConfigError
deriving DecidableEq

/-- Truthiness of the `mask` prop (`""` is falsy, every array is truthy). -/
def maskTruthy : Mask → Bool
  | .strM s => s ≠ []
  | .arr _ => true

/-- `mask.toString()`: itself for a string, the comma-joined elements for
an array. -/
def maskAsStr : Mask → List Char
  | .strM s => s
  | .arr ss => List.intercalate [','] ss

/-- `validateProps` from index.tsx: throws when the resolved decimal and
thousand separators collide, then when a truthy mask contains a digit. -/
def validateProps (cfg : CFConfig) : Except ConfigError Unit :=
  if resolvedTSep cfg = some cfg.decimalSeparator then
    Except.error ConfigError.sepCollision
  else if maskTruthy cfg.mask && (maskAsStr cfg.mask).any Char.isDigit then
    Except.error ConfigError.maskDigit
  else Except.ok ()

/-- `getInitialState` from index.tsx: the first formatted value and its
raw counterpart. -/
def getInitialState (cfg : CFConfig) : List Char × List Char :=
  let fv := formatValueProp cfg
  (fv, removeFormatting cfg fv)

/-- The `useState` initializer of the component: `validateProps()` runs
before `getInitialState()`; a throw prevents any state from existing, so a
misconfigured instance never renders a value. -/
def componentInit (cfg : CFConfig) : Except ConfigError (List Char × List Char) :=
  (validateProps cfg).map (fun _ => getInitialState cfg)

/-- `isCharacterAFormat` from index.tsx. -/
def isCharacterAFormat (cfg : CFConfig) (caretPos : Nat) (value : List Char) :
    Bool :=
  match cfg.format with
  | some f => f.get? caretPos ≠ some '#'
  | none =>
    decide (caretPos < cfg.pfx.length) ||
    decide ((caretPos : Int) ≥ (value.length : Int) - cfg.sfx.length) ||
    (scaleTruthy cfg.decimalScale && cfg.fixedDecimalScale &&
      value.get? caretPos = some cfg.decimalSeparator)

/-- `checkIfFormatGotDeleted` from index.tsx. -/
def checkIfFormatGotDeleted (cfg : CFConfig) (start e : Nat) (value : List Char) :
    Bool :=
  (List.range' start (e - start)).any (fun i => isCharacterAFormat cfg i value)

/-- Truthiness of `parseFloat(s)` (`NaN` and `0` are falsy). -/
def jsFloatTruthy (l : List Char) : Bool :=
  match jsParseFloat l with
  | some q => q.num ≠ 0
  | none => false

/-- `correctInputValue` from index.tsx; `numAsString` is the
`state.numAsString` captured by the callback. -/
def correctInputValue (cfg : CFConfig) (numAsString : List Char)
    (caretPos : Nat) (lastValue value : List Char) : List Char :=
  if value.length ≥ lastValue.length || value = [] then value
  else
    let start := caretPos
    let lastValueParts := splitString lastValue caretPos
    let newValueParts := splitString value caretPos
    let deletedIndex := jsLastIndexOf lastValueParts.2 newValueParts.2
    let diff := if deletedIndex ≠ -1 then lastValueParts.2.take deletedIndex.toNat else []
    let e := start + diff.length
    let value1 := if checkIfFormatGotDeleted cfg start e lastValue then lastValue else value
    if cfg.format = none then
      let numericString := removeFormatting cfg value1
      let sd := splitDecimal cfg numericString
      if numericString.length < numAsString.length && sd.beforeDecimal = [] &&
          !jsFloatTruthy sd.afterDecimal then
        (if sd.addNegation then ['-'] else [])
      else value1
    else value1

/-- The navigation hint strings `"left"` / `"right"`. -/
inductive Dirn where
  | leftD : Dirn
  | rightD : Dirn
deriving DecidableEq

/-- The `caretLeftBound` decrement loop of the pattern branch of
`correctCaretPosition` (fuel-driven; the caller passes fuel covering every
possible iteration count). -/
def clbLoop (f value : List Char) (firstHash : Int) : Nat → Int → Int
  | 0, clb => clb
  | fuel + 1, clb =>
    if clb > firstHash &&
        (decide (f.get? clb.toNat ≠ some '#') ||
          !charIsNumber (value.get? clb.toNat)) then
      clbLoop f value firstHash fuel (clb - 1)
    else clb

/-- `correctCaretPosition` from index.tsx (returns a JS number, so `Int`:
the numeric branch can go negative when the suffix is longer than the
value).  The `format`-as-function branch is outside the embedding. -/
def correctCaretPosition (cfg : CFConfig) (value : List Char) (caretPos : Nat)
    (dir : Option Dirn) : Int :=
  match cfg.format with
  | none =>
    let hasNegation := value.head? = some '-'
    min (max (caretPos : Int) ((cfg.pfx.length : Int) + (if hasNegation then 1 else 0)))
      ((value.length : Int) - cfg.sfx.length)
  | some f =>
    if decide (f.get? caretPos = some '#') && charIsNumber (value.get? caretPos) then
      (caretPos : Int)
    else if (match caretPos with
             | 0 => false
             | c + 1 => decide (f.get? c = some '#') && charIsNumber (value.get? c)) then
      (caretPos : Int)
    else
      let firstHashPosition : Int :=
        match f.findIdx? (fun c => c = '#') with
        | some i => (i : Int)
        | none => -1
      let lastHashPosition : Int := jsLastIndexOf f ['#']
      let caretPos2 : Int := min (max (caretPos : Int) firstHashPosition)
        (lastHashPosition + 1)
      let nextPos : Int :=
        match (f.drop caretPos2.toNat).findIdx? (fun c => c = '#') with
        | some i => (i : Int)
        | none => -1
      let caretRightBound : Int := caretPos2 + (if nextPos = -1 then 0 else nextPos)
      let caretLeftBound := clbLoop f value firstHashPosition (caretPos2.toNat + 1)
        caretPos2
      let goToLeft :=
        !charIsNumber (value.get? caretRightBound.toNat) ||
        (decide (dir = some Dirn.leftD) && decide (caretPos2 ≠ firstHashPosition)) ||
        decide (caretPos2 - caretLeftBound < caretRightBound - caretPos2)
      if goToLeft then caretLeftBound + 1 else caretRightBound

/-- The inner `while` advance of the `getCaretPosition` loop (fuel-driven;
the caller passes fuel that always reaches the end of the formatted
string). -/
def advWhileAux (c : Option Char) (fv : List Char) : Nat → Nat → Nat
  | 0, j => j
  | fuel + 1, j =>
    match fv.get? j with
    | none => j
    | some ch => if some ch = c then j else advWhileAux c fv fuel (j + 1)

/-- JS loop `while (ci !== fv[j] && j < fv.length) j++`. -/
def advWhile (c : Option Char) (fv : List Char) (j : Nat) : Nat :=
  advWhileAux c fv (fv.length + 1) j

/-- One iteration of the `for` loop of `getCaretPosition`. -/
def gcpStep (cfg : CFConfig) (iv fv inputNumber formattedNumber : List Char)
    (i j : Nat) : Nat :=
  let ci := iv.get? i
  let cf := fv.get? j
  if !numRegexMatchesOpt cfg false ci && decide (ci ≠ cf) then j
  else if decide (ci = some '0') && numRegexMatchesOpt cfg false cf &&
      decide (cf ≠ some '0') &&
      decide (inputNumber.length ≠ formattedNumber.length) then j
  else advWhile ci fv j + 1

/-- Bounded `for i in [i0, i0 + rem)` iteration threading `j`. -/
def gcpIter (step : Nat → Nat → Nat) : Nat → Nat → Nat → Nat
  | 0, _, j => j
  | rem + 1, i, j => gcpIter step rem (i + 1) (step i j)

/-- `getCaretPosition` from index.tsx; `stateValue` is the `state.value`
read by the `typeof format === "string" && !state.value` special case. -/
def getCaretPosition (cfg : CFConfig) (stateValue : List Char)
    (inputValue formattedValue : List Char) (caretPos : Nat) : Int :=
  let inputNumber := inputValue.filter (numRegexMatches cfg false)
  let formattedNumber := formattedValue.filter (numRegexMatches cfg false)
  let j0 := gcpIter (gcpStep cfg inputValue formattedValue inputNumber formattedNumber)
    caretPos 0 0
  let j1 :=
    if (match cfg.format with | some _ => true | none => false) &&
        decide (stateValue = []) then
      formattedValue.length
    else j0
  correctCaretPosition cfg formattedValue j1 none


/-- Canonical raw numeric string: optional sign, integer digits, optional
decimal point with fraction digits. -/
def rawStr (neg : Bool) (I : List Char) (dotF : Option (List Char)) : List Char :=
  (if neg then ['-'] else []) ++ I ++
    (match dotF with
     | some F => '.' :: F
     | none => [])

/-- Every character of the list is a decimal digit. -/
def AllDigits (l : List Char) : Prop := ∀ c ∈ l, c.isDigit

instance (l : List Char) : Decidable (AllDigits l) :=
  inferInstanceAs (Decidable (∀ c ∈ l, c.isDigit = true))

section Lemmas

lemma takeWhile_append_all {p : Char → Bool} {l r : List Char}
    (h : ∀ c ∈ l, p c) : (l ++ r).takeWhile p = l ++ r.takeWhile p := by
  induction l with
  | nil => simp
  | cons x xs ih => simp_all [List.takeWhile_cons]

lemma dropWhile_append_all {p : Char → Bool} {l r : List Char}
    (h : ∀ c ∈ l, p c) : (l ++ r).dropWhile p = r.dropWhile p := by
  induction l with
  | nil => simp
  | cons x xs ih => simp_all [List.dropWhile_cons]

lemma takeWhile_all {p : Char → Bool} {l : List Char}
    (h : ∀ c ∈ l, p c) : l.takeWhile p = l := by
  simpa using takeWhile_append_all (r := []) h

lemma dropWhile_all {p : Char → Bool} {l : List Char}
    (h : ∀ c ∈ l, p c) : l.dropWhile p = [] := by
  simpa using dropWhile_append_all (r := []) h

lemma contains_eq_mem (l : List Char) (c : Char) :
    l.contains c = decide (c ∈ l) := by
  induction l with
  | nil => simp
  | cons x xs ih => by_cases h : x = c <;> simp_all [List.contains_cons]

lemma ne_of_digit_of_not {c d : Char} (hc : c.isDigit = true)
    (hd : ¬ d.isDigit = true) : c ≠ d := by
  rintro rfl; exact hd hc

lemma digit_ne_dot {c : Char} (hc : c.isDigit = true) : c ≠ '.' :=
  ne_of_digit_of_not hc (by decide)

lemma digit_ne_neg {c : Char} (hc : c.isDigit = true) : c ≠ '-' :=
  ne_of_digit_of_not hc (by decide)

lemma jsRemoveFirstChar_not_mem {c : Char} {l : List Char} (h : c ∉ l) :
    jsRemoveFirstChar c l = l := by
  induction l with
  | nil => rfl
  | cons x xs ih =>
    simp only [List.mem_cons, not_or] at h
    simp [jsRemoveFirstChar, Ne.symm h.1, ih h.2]

lemma jsReplaceFirstChar_not_mem {c c2 : Char} {l : List Char} (h : c ∉ l) :
    jsReplaceFirstChar c c2 l = l := by
  induction l with
  | nil => rfl
  | cons x xs ih =>
    simp only [List.mem_cons, not_or] at h
    simp [jsReplaceFirstChar, Ne.symm h.1, ih h.2]

lemma jsReplaceFirstChar_append {c c2 : Char} {I F : List Char} (h : c ∉ I) :
    jsReplaceFirstChar c c2 (I ++ c :: F) = I ++ c2 :: F := by
  induction I with
  | nil => simp [jsReplaceFirstChar]
  | cons x xs ih =>
    simp only [List.mem_cons, not_or] at h
    simp [jsReplaceFirstChar, Ne.symm h.1, ih h.2]

lemma jsReplaceFirstChar_self {c : Char} {l : List Char} :
    jsReplaceFirstChar c c l = l := by
  induction l with
  | nil => rfl
  | cons x xs ih =>
    by_cases h : x = c
    · subst h; simp [jsReplaceFirstChar]
    · simp [jsReplaceFirstChar, h, ih]

lemma keepFirstDot_not_mem {l : List Char} (h : '.' ∉ l) :
    keepFirstDot l = l := by
  induction l with
  | nil => rfl
  | cons x xs ih =>
    simp only [List.mem_cons, not_or] at h
    simp [keepFirstDot, Ne.symm h.1, ih h.2]

lemma keepFirstDot_append {I F : List Char} (hI : '.' ∉ I) (hF : '.' ∉ F) :
    keepFirstDot (I ++ '.' :: F) = I ++ '.' :: F := by
  induction I with
  | nil =>
    rw [List.nil_append]
    unfold keepFirstDot
    rw [if_pos rfl]
    congr 1
    exact List.filter_eq_self.mpr (fun c hc => by
      simp only [ne_eq, decide_eq_true_eq]
      rintro rfl; exact hF hc)
  | cons x xs ih =>
    simp only [List.mem_cons, not_or] at hI
    simp [keepFirstDot, Ne.symm hI.1, ih hI.2]

lemma keepFirstDotRemoving_not_mem {d : Char} {l : List Char} (h : '.' ∉ l) :
    keepFirstDotRemoving d l = l := by
  induction l with
  | nil => rfl
  | cons x xs ih =>
    simp only [List.mem_cons, not_or] at h
    simp [keepFirstDotRemoving, Ne.symm h.1, ih h.2]

lemma keepFirstDotRemoving_append {d : Char} {I F : List Char} (hI : '.' ∉ I)
    (hF : d ∉ F) : keepFirstDotRemoving d (I ++ '.' :: F) = I ++ '.' :: F := by
  induction I with
  | nil =>
    rw [List.nil_append]
    unfold keepFirstDotRemoving
    rw [if_pos rfl]
    congr 1
    exact List.filter_eq_self.mpr (fun c hc => by
      simp only [ne_eq, decide_eq_true_eq]
      rintro rfl; exact hF hc)
  | cons x xs ih =>
    simp only [List.mem_cons, not_or] at hI
    simp [keepFirstDotRemoving, Ne.symm hI.1, ih hI.2]

lemma groupGo_filter {p : Nat → Bool} {q : Char → Bool} {sep : Char}
    (hq : q sep = false) : ∀ (r : Nat) (l : List Char),
    (groupGo p sep r l).filter q = l.filter q := by
  intro r l
  induction l generalizing r with
  | nil => rfl
  | cons c cs ih =>
    by_cases h : p r <;> simp [groupGo, h, hq, List.filter_cons, ih]

lemma groupGo_ne_nil {p : Nat → Bool} {sep : Char} {r : Nat} {c : Char}
    {cs : List Char} : groupGo p sep r (c :: cs) ≠ [] := by
  by_cases h : p r <;> simp [groupGo, h]

lemma getLast?_cons_of_ne_nil (a : Char) {l : List Char} (h : l ≠ []) :
    (a :: l).getLast? = l.getLast? := by
  cases l with
  | nil => exact absurd rfl h
  | cons b bs => exact List.getLast?_cons_cons

lemma groupGo_getLast? {p : Nat → Bool} {sep : Char} :
    ∀ (r : Nat) (l : List Char), l ≠ [] →
    (groupGo p sep r l).getLast? = l.getLast? := by
  intro r l
  induction l generalizing r with
  | nil => intro h; exact absurd rfl h
  | cons c cs ih =>
    intro _
    cases cs with
    | nil =>
      by_cases h : p r <;> simp [groupGo, h]
    | cons c2 cs2 =>
      have hne : groupGo p sep (r + 1) (c2 :: cs2) ≠ [] := groupGo_ne_nil
      have step : (groupGo p sep r (c :: c2 :: cs2)).getLast? =
          (groupGo p sep (r + 1) (c2 :: cs2)).getLast? := by
        show ((if p r then [sep] else []) ++
          c :: groupGo p sep (r + 1) (c2 :: cs2)).getLast? = _
        rw [List.getLast?_append_of_ne_nil _ (by simp),
          getLast?_cons_of_ne_nil _ hne]
      rw [step, ih (r + 1) (by simp)]
      exact (getLast?_cons_of_ne_nil c (l := c2 :: cs2) (by simp)).symm

lemma formatThousand_filter {sp : Spacing} {sep : Char} {q : Char → Bool}
    (hq : q sep = false) (l : List Char) :
    (formatThousand sp sep l).filter q = l.filter q := by
  unfold formatThousand
  rw [List.filter_reverse, groupGo_filter hq, ← List.filter_reverse,
    List.reverse_reverse]

lemma formatThousand_head? {sp : Spacing} {sep : Char} {l : List Char}
    (h : l ≠ []) : (formatThousand sp sep l).head? = l.head? := by
  unfold formatThousand
  rw [List.head?_reverse, groupGo_getLast? _ _ (by simpa using h),
    List.getLast?_reverse]

lemma formatThousand_ne_nil {sp : Spacing} {sep : Char} {l : List Char}
    (h : l ≠ []) : formatThousand sp sep l ≠ [] := by
  intro hc
  cases l with
  | nil => exact h rfl
  | cons c cs =>
    have := @formatThousand_head? sp sep (c :: cs) (by simp)
    rw [hc] at this
    simp at this

lemma jsSplitPart0_digits {l : List Char} (h : AllDigits l) :
    jsSplitPart0 '.' l = l :=
  takeWhile_all (fun c hc => by simpa using digit_ne_dot (h c hc))

lemma jsSplitPart1_digits {l : List Char} (h : AllDigits l) :
    jsSplitPart1 '.' l = [] := by
  unfold jsSplitPart1
  rw [dropWhile_all (fun c hc => by simpa using digit_ne_dot (h c hc))]

lemma jsSplitPart0_dot {I F : List Char} (hI : AllDigits I) :
    jsSplitPart0 '.' (I ++ '.' :: F) = I := by
  unfold jsSplitPart0
  rw [takeWhile_append_all (fun c hc => by simpa using digit_ne_dot (hI c hc))]
  simp [List.takeWhile_cons]

lemma jsSplitPart1_dot {I F : List Char} (hI : AllDigits I) (hF : AllDigits F) :
    jsSplitPart1 '.' (I ++ '.' :: F) = F := by
  unfold jsSplitPart1
  rw [dropWhile_append_all (fun c hc => by simpa using digit_ne_dot (hI c hc))]
  have h1 : ('.' :: F).dropWhile (fun x => decide (x ≠ '.')) = '.' :: F := by
    simp [List.dropWhile_cons]
  rw [h1]
  show F.takeWhile _ = F
  exact takeWhile_all (fun c hc => by simpa using digit_ne_dot (hF c hc))

end Lemmas

section GroupingLemmas

lemma sepHere_shift {j : Nat} (hj : 1 ≤ j) :
    sepHere Spacing.twoScaled (3 + j) = sepHere Spacing.two j := by
  simp only [sepHere]
  by_cases hp : j % 2 = 0
  · have hq : (3 + j) % 2 = 1 := by omega
    have h3 : 3 ≤ 3 + j := by omega
    have h0 : 0 < j := hj
    simp [hp, hq, h3, h0]
  · have hq : ¬ (3 + j) % 2 = 1 := by omega
    simp [hp, hq]

lemma groupGo_twoScaled_shift (sep : Char) :
    ∀ (m : List Char) (j : Nat), 1 ≤ j →
    groupGo (sepHere Spacing.twoScaled) sep (3 + j) m =
      groupGo (sepHere Spacing.two) sep j m := by
  intro m
  induction m with
  | nil => intro j _; rfl
  | cons c cs ih =>
    intro j hj
    show (if sepHere Spacing.twoScaled (3 + j) then [sep] else []) ++
        c :: groupGo (sepHere Spacing.twoScaled) sep (3 + j + 1) cs = _
    rw [sepHere_shift hj]
    have h2 : 3 + j + 1 = 3 + (j + 1) := by omega
    rw [h2, ih (j + 1) (by omega)]
    rfl

end GroupingLemmas

/-- C2: `parseCurrency` produces a `ValueObject` whose `floatValue` is
`NaN` (modelled `none`) on the raw value `"0"`, although `"0"` parses to
the number `0`: the source computes `parseFloat(value) || NaN` and the
falsy result `0` is replaced by `NaN`.  This contradicts the spec
invariant `numeric value == parseNumber(raw value)` (NaN only for
empty/invalid raw strings); the in-component `handleChange` uses plain
`parseFloat` and is unaffected, so the `|| NaN` is a slip. -/
theorem valueObject_floatValue_zero_bug :
    (parseCurrency (str "0") {}).value = str "0" ∧
    jsParseFloat (str "0") = some { num := 0, pw := 0 } ∧
    (parseCurrency (str "0") {}).floatValue = none := by
  exact ⟨by decide, by decide, by decide⟩

/-- C7: caret stability when a grouping separator is inserted.  With
prefix `"$"` and thousand separator `","`, starting from formatted text
`"$1,234"` (raw `"1234"`) with the caret at position 6 and typing `5`
(edited text `"$1,2345"`, caret 7): `correctInputValue` leaves the edited
text unchanged, formatting produces `"$12,345"`, and `getCaretPosition`
returns 7 — immediately after the typed `5`, not shifted by the new
grouping separator. -/
theorem caret_stability_separator_insertion :
    correctInputValue { pfx := str "$" } (str "1234") 7 (str "$1,234")
      (str "$1,2345") = str "$1,2345" ∧
    formatInput { pfx := str "$" } (str "$1,2345") = str "$12,345" ∧
    getCaretPosition { pfx := str "$" } (str "$1,234") (str "$1,2345")
      (str "$12,345") 7 = 7 := by
  exact ⟨by decide, by decide, by decide⟩

/-- C1 (counterexample): the round-trip claim fails as stated for the
configuration `prefix := "-"`.  The raw string `"5"` is already canonical
(no sign, digits only), yet `parseCurrency (formatCurrency "5" c) c`
returns `"-5"`: the formatted text is `"-5"` (the prefix), and the parser
reads the leading `-` as a negation sign. -/
theorem roundtrip_counterexample :
    formatCurrency (str "5") { pfx := str "-" } = str "-5" ∧
    (parseCurrency (str "-5") { pfx := str "-" }).value = str "-5" ∧
    (str "-5" : List Char) ≠ str "5" := by
  exact ⟨by decide, by decide, by decide⟩

/-- C3 (counterexample): idempotence under re-formatting fails as stated
for `decimalScale = 0`.  `formatNumString "1.5"` is `"1."` (the decimal
separator survives with an empty fraction), but `removeFormatting`
drops the separator (the number regex excludes it when
`decimalScale === 0`), so re-formatting yields `"1"` ≠ `"1."`. -/
theorem reformat_idempotence_counterexample :
    formatNumString { decimalScale := some 0 } (str "1.5") = str "1." ∧
    formatNumString { decimalScale := some 0 }
      (removeFormatting { decimalScale := some 0 }
        (formatNumString { decimalScale := some 0 } (str "1.5"))) = str "1" ∧
    (str "1" : List Char) ≠ str "1." := by
  exact ⟨by decide, by decide, by decide⟩

/-- C6 (counterexample): the protected-zone claim fails as literally
stated when the edit deletes the whole text.  With prefix `"$"` and
previous formatted text `"$"` (empty raw value, e.g. under
`allowEmptyFormatting`), deleting the `"$"` removes only protected
characters, yet `correctInputValue` hits the `!value.length` early return
and yields `""`, not the previous text `"$"`. -/
theorem protected_deletion_counterexample :
    isCharacterAFormat { pfx := str "$" } 0 (str "$") = true ∧
    correctInputValue { pfx := str "$" } [] 0 (str "$") [] = [] ∧
    ([] : List Char) ≠ str "$" := by
  exact ⟨by decide, by decide, by decide⟩

/-- C8: configuration errors are fatal and eager.  For every configuration
whose resolved decimal and thousand separators coincide
(`thousandSeparator = true` resolves to `","`), or whose mask contains a
digit character, the `useState` initializer — which runs `validateProps()`
before computing any formatted state — throws, so no such instance ever
holds (or renders) a value. -/
theorem config_errors_fatal (cfg : CFConfig)
    (h : resolvedTSep cfg = some cfg.decimalSeparator ∨
         (maskAsStr cfg.mask).any Char.isDigit = true) :
    ∃ e, componentInit cfg = Except.error e := by
  unfold componentInit validateProps
  by_cases h1 : resolvedTSep cfg = some cfg.decimalSeparator
  · exact ⟨ConfigError.sepCollision, by simp [h1, Except.map]⟩
  · have h2 : (maskAsStr cfg.mask).any Char.isDigit = true := h.resolve_left h1
    have h3 : maskTruthy cfg.mask = true := by
      cases hm : cfg.mask with
      | strM s =>
        cases s with
        | nil => rw [hm] at h2; simp [maskAsStr] at h2
        | cons a as => simp [maskTruthy]
      | arr ss => simp [maskTruthy]
    exact ⟨ConfigError.maskDigit, by simp [h1, h3, h2, Except.map]⟩

/-- Witness for C8: the default decimal separator `","` collides with the
default thousand separator `","`, and initialization indeed errors. -/
theorem config_errors_fatal_witness :
    resolvedTSep { decimalSeparator := ',' } = some (',' : Char) ∧
    ∃ e, componentInit { decimalSeparator := ',' } = Except.error e :=
  ⟨by decide, config_errors_fatal _ (Or.inl (by decide))⟩

/-- C9 (counterexample): on finalize, the raw value `"-00"` does not
become `""` (nor a bare sign): `fixLeadingZero` keeps a single zero and
the sign, giving `"-0"`. -/
theorem leading_zero_neg00_counterexample :
    fixLeadingZero (str "-00") = str "-0" ∧
    (str "-0" : List Char) ≠ str "" ∧ (str "-0" : List Char) ≠ str "-" := by
  exact ⟨by decide, by decide, by decide⟩

/-- C9 (amended): for every nonempty signed decimal string,
`fixLeadingZero` strips leading zeros from the integer part (keeping a
single `0` when it becomes empty), preserves the sign and the fractional
digits (dropping a dangling decimal point), so `"00123"` becomes `"123"`;
`"-00"` becomes `"-0"`, a single signed zero, not the empty string. -/
theorem leading_zero_fix_amended (neg : Bool) (I : List Char)
    (dotF : Option (List Char)) (hI : AllDigits I)
    (hF : ∀ F, dotF = some F → AllDigits F)
    (hne : rawStr neg I dotF ≠ []) :
    fixLeadingZero (rawStr neg I dotF) =
      (if neg then ['-'] else []) ++
      (if I.dropWhile (fun c => c = '0') = [] then ['0']
       else I.dropWhile (fun c => c = '0')) ++
      dotF.elim [] (fun F => if F = [] then [] else '.' :: F) := by
  cases dotF with
  | none =>
    have hsp0 : jsSplitPart0 '.' I = I := jsSplitPart0_digits hI
    have hsp1 : jsSplitPart1 '.' I = [] := jsSplitPart1_digits hI
    cases neg with
    | false =>
      have hxI : rawStr false I none = I := by simp [rawStr]
      rw [hxI] at hne ⊢
      have hhead : ¬ I.head? = some '-' := by
        cases I with
        | nil => simp
        | cons c cs => simpa using digit_ne_neg (hI c (by simp))
      simp only [fixLeadingZero, if_neg hne, if_neg hhead, hsp0, hsp1]
      simp
    | true =>
      have hx : rawStr true I none = '-' :: I := by simp [rawStr]
      rw [hx]
      simp only [fixLeadingZero]
      simp [hsp0, hsp1]
  | some F =>
    have hFd : AllDigits F := hF F rfl
    have hsp0 : jsSplitPart0 '.' (I ++ '.' :: F) = I := jsSplitPart0_dot hI
    have hsp1 : jsSplitPart1 '.' (I ++ '.' :: F) = F := jsSplitPart1_dot hI hFd
    cases neg with
    | false =>
      have hx : rawStr false I (some F) = I ++ '.' :: F := by simp [rawStr]
      rw [hx]
      have hhead : ¬ (I ++ '.' :: F).head? = some '-' := by
        cases I with
        | nil => simp
        | cons c cs => simpa using digit_ne_neg (hI c (by simp))
      simp only [fixLeadingZero, if_neg hhead, hsp0, hsp1]
      simp [hhead]
    | true =>
      have hx : rawStr true I (some F) = '-' :: (I ++ '.' :: F) := by
        simp [rawStr]
      rw [hx]
      simp only [fixLeadingZero]
      simp [hsp0, hsp1]

/-- Witness for C9: the claim's own example `"00123"` finalizes to
`"123"`, via the amended theorem applied at `neg := false`, `I = "00123"`,
no fraction. -/
theorem leading_zero_fix_amended_witness :
    rawStr false (str "00123") none = str "00123" ∧
    fixLeadingZero (str "00123") = str "123" := by
  constructor
  · decide
  · have h := leading_zero_fix_amended false (str "00123") none (by decide)
      (fun F hc => by cases hc) (by decide)
    rw [show rawStr false (str "00123") none = str "00123" by decide] at h
    rw [h]
    decide

/-- C4: grouping correctness.  Formatting `1234567` with thousand
separator `","` yields `"1,234,567"` under plain 3-digit grouping,
`"12,34,567"` under the scaled-2 (Indian) scheme and `"123,4567"` under
4-digit grouping; and in general, on any digit string of more than three
digits, the scaled-2 scheme is: one separator 3 digits from the right,
then the plain 2-digit scheme on the remaining left part (a separator
every 2 digits thereafter). -/
theorem grouping_correctness :
    formatCurrency (str "1234567") { thousandSpacing := Spacing.three } =
      str "1,234,567" ∧
    formatCurrency (str "1234567") { thousandSpacing := Spacing.twoScaled } =
      str "12,34,567" ∧
    formatCurrency (str "1234567") { thousandSpacing := Spacing.four } =
      str "123,4567" ∧
    ∀ (sep : Char) (l : List Char), AllDigits l → 3 < l.length →
      formatThousand Spacing.twoScaled sep l =
        formatThousand Spacing.two sep (l.take (l.length - 3)) ++
          sep :: l.drop (l.length - 3) := by
  refine ⟨by decide, by decide, by decide, ?_⟩
  intro sep l _ hlen
  have htd : l.take (l.length - 3) ++ l.drop (l.length - 3) = l :=
    List.take_append_drop _ _
  have hdlen : (l.drop (l.length - 3)).length = 3 := by
    rw [List.length_drop]; omega
  obtain ⟨a, b, c, habc⟩ := List.length_eq_three.mp hdlen
  have htlen : 1 ≤ (l.take (l.length - 3)).length := by
    rw [List.length_take]; omega
  obtain ⟨x, xs, hxxs⟩ : ∃ x xs, (l.take (l.length - 3)).reverse = x :: xs := by
    cases hh : (l.take (l.length - 3)).reverse with
    | nil =>
      have : (l.take (l.length - 3)).length = 0 := by
        rw [← List.length_reverse, hh]; rfl
      omega
    | cons x xs => exact ⟨x, xs, rfl⟩
  have hlrev : l.reverse = c :: b :: a :: (l.take (l.length - 3)).reverse := by
    conv_lhs => rw [← htd]
    rw [List.reverse_append, habc]
    rfl
  unfold formatThousand
  rw [hlrev, hxxs, habc]
  have e1 : groupGo (sepHere Spacing.twoScaled) sep 0 (c :: b :: a :: x :: xs) =
      c :: b :: a :: sep :: x :: groupGo (sepHere Spacing.twoScaled) sep 4 xs := by
    simp [groupGo, sepHere]
  have e2 : groupGo (sepHere Spacing.twoScaled) sep 4 xs =
      groupGo (sepHere Spacing.two) sep 1 xs := by
    have h := groupGo_twoScaled_shift sep xs 1 (by omega)
    simpa using h
  have e3 : groupGo (sepHere Spacing.two) sep 0 (x :: xs) =
      x :: groupGo (sepHere Spacing.two) sep 1 xs := by
    simp [groupGo, sepHere]
  rw [e1, e2, e3]
  simp [List.reverse_cons, List.append_assoc]

/-- Witness for C4's general scaled-2 decomposition, at the claim's own
digit string `1234567`. -/
theorem grouping_correctness_witness :
    AllDigits (str "1234567") ∧ 3 < (str "1234567").length ∧
    formatThousand Spacing.twoScaled ',' (str "1234567") =
      formatThousand Spacing.two ','
          ((str "1234567").take ((str "1234567").length - 3)) ++
        ',' :: (str "1234567").drop ((str "1234567").length - 3) := by
  refine ⟨by decide, by decide, ?_⟩
  exact grouping_correctness.2.2.2 ',' (str "1234567") (by decide) (by decide)

section PatternLemmas

lemma get?_take_lt {l : List Char} {k n : Nat} (h : k < n) :
    (l.take n).get? k = l.get? k := by
  rw [List.get?_eq_getElem?, List.get?_eq_getElem?, List.getElem?_take_of_lt h]

lemma fwpGo_hash_some {cfg : CFConfig} {s : List Char} {cs : List Char}
    {h : Nat} {ch : Char} (hg : s.get? h = some ch) :
    fwpGo cfg s ('#' :: cs) h = ch :: fwpGo cfg s cs (h + 1) := by
  simp only [fwpGo, hg, List.singleton_append, if_true, eq_self_iff_true]

lemma fwpGo_hash_none {cfg : CFConfig} {s : List Char} {cs : List Char}
    {h : Nat} {m : Char} (hg : s.get? h = none)
    (hmm1 : getMaskAtIndex cfg h = [m]) :
    fwpGo cfg s ('#' :: cs) h = m :: fwpGo cfg s cs (h + 1) := by
  simp only [fwpGo, hg, hmm1, List.singleton_append, if_true, eq_self_iff_true]

lemma fwpGo_lit {cfg : CFConfig} {s : List Char} {cs : List Char}
    {h : Nat} {c : Char} (hc : c ≠ '#') :
    fwpGo cfg s (c :: cs) h = c :: fwpGo cfg s cs h := by
  simp only [fwpGo, if_neg hc]

lemma fwpGo_cons_cases {cfg : CFConfig} {s : List Char}
    (hm : ∀ i, (getMaskAtIndex cfg i).length = 1) (cs : List Char) (h : Nat) :
    ∃ z, fwpGo cfg s ('#' :: cs) h = z :: fwpGo cfg s cs (h + 1) ∧
      z = (match s.get? h with
           | some ch => ch
           | none => (getMaskAtIndex cfg h).headD ' ') := by
  cases hg : s.get? h with
  | some ch => exact ⟨ch, fwpGo_hash_some hg, rfl⟩
  | none =>
    obtain ⟨m, hmm1⟩ := List.length_eq_one.mp (hm h)
    exact ⟨m, fwpGo_hash_none hg hmm1, by rw [hmm1]; rfl⟩

lemma fwpGo_length {cfg : CFConfig} {s : List Char}
    (hm : ∀ i, (getMaskAtIndex cfg i).length = 1) :
    ∀ (f : List Char) (h : Nat), (fwpGo cfg s f h).length = f.length := by
  intro f
  induction f with
  | nil => intro h; rfl
  | cons c cs ih =>
    intro h
    by_cases hc : c = '#'
    · subst hc
      obtain ⟨z, hz, _⟩ := fwpGo_cons_cases hm cs h
      rw [hz, List.length_cons, ih, List.length_cons]
    · rw [fwpGo_lit hc, List.length_cons, ih, List.length_cons]

lemma fwpGo_get? {cfg : CFConfig} {s : List Char}
    (hm : ∀ i, (getMaskAtIndex cfg i).length = 1) :
    ∀ (f : List Char) (h i : Nat),
    (fwpGo cfg s f h).get? i =
      (match f.get? i with
       | none => none
       | some c =>
         if c = '#' then
           (match s.get? (h + (f.take i).count '#') with
            | some ch => some ch
            | none => (getMaskAtIndex cfg (h + (f.take i).count '#')).head?)
         else some c) := by
  intro f
  induction f with
  | nil => intro h i; cases i <;> rfl
  | cons c cs ih =>
    intro h i
    by_cases hc : c = '#'
    · subst hc
      cases i with
      | zero =>
        show (fwpGo cfg s ('#' :: cs) h).get? 0 =
          (match s.get? (h + 0) with
           | some ch => some ch
           | none => (getMaskAtIndex cfg (h + 0)).head?)
        rw [Nat.add_zero]
        cases hg : s.get? h with
        | some ch =>
          rw [fwpGo_hash_some hg]
          rfl
        | none =>
          obtain ⟨m, hmm1⟩ := List.length_eq_one.mp (hm h)
          rw [fwpGo_hash_none hg hmm1, hmm1]
          rfl
      | succ j =>
        obtain ⟨z, hz, _⟩ := fwpGo_cons_cases hm cs h
        rw [hz]
        show (fwpGo cfg s cs (h + 1)).get? j =
          (match cs.get? j with
           | none => none
           | some c =>
             if c = '#' then
               (match s.get? (h + ('#' :: cs.take j).count '#') with
                | some ch => some ch
                | none =>
                  (getMaskAtIndex cfg (h + ('#' :: cs.take j).count '#')).head?)
             else some c)
        rw [ih (h + 1) j]
        have harith : h + 1 + (cs.take j).count '#' =
            h + ('#' :: cs.take j).count '#' := by
          rw [List.count_cons_self]; omega
        rw [harith]
    · cases i with
      | zero =>
        rw [fwpGo_lit hc]
        show some c = if c = '#' then _ else some c
        rw [if_neg hc]
      | succ j =>
        rw [fwpGo_lit hc]
        show (fwpGo cfg s cs h).get? j =
          (match cs.get? j with
           | none => none
           | some c2 =>
             if c2 = '#' then
               (match s.get? (h + (c :: cs.take j).count '#') with
                | some ch => some ch
                | none =>
                  (getMaskAtIndex cfg (h + (c :: cs.take j).count '#')).head?)
             else some c2)
        rw [ih h j]
        have harith : h + (cs.take j).count '#' =
            h + (c :: cs.take j).count '#' := by
          simp [List.count_cons, hc]
        rw [harith]

lemma fwpGo_congr {cfg : CFConfig} {s1 s2 : List Char} :
    ∀ (f : List Char) (h : Nat),
    (∀ k, h ≤ k → k < h + f.count '#' → s1.get? k = s2.get? k) →
    fwpGo cfg s1 f h = fwpGo cfg s2 f h := by
  intro f
  induction f with
  | nil => intro h _; rfl
  | cons c cs ih =>
    intro h hk
    by_cases hc : c = '#'
    · subst hc
      have hcount : ('#' :: cs).count '#' = cs.count '#' + 1 := by
        simp [List.count_cons]
      have h0 : s1.get? h = s2.get? h := hk h le_rfl (by rw [hcount]; omega)
      have hrec := ih (h + 1) (fun k hk1 hk2 => hk k (by omega) (by
        rw [hcount]; omega))
      show (if ('#' : Char) = '#' then
          (match s1.get? h with
           | some ch => [ch]
           | none => getMaskAtIndex cfg h) ++ fwpGo cfg s1 cs (h + 1)
        else '#' :: fwpGo cfg s1 cs h) = _
      rw [if_pos rfl, h0, hrec]
      rw [show fwpGo cfg s2 ('#' :: cs) h = (if ('#' : Char) = '#' then
          (match s2.get? h with
           | some ch => [ch]
           | none => getMaskAtIndex cfg h) ++ fwpGo cfg s2 cs (h + 1)
        else '#' :: fwpGo cfg s2 cs h) from rfl, if_pos rfl]
    · have hcount : (c :: cs).count '#' = cs.count '#' := by
        simp [List.count_cons, hc]
      have hrec := ih h (fun k hk1 hk2 => hk k hk1 (by rw [hcount]; omega))
      rw [fwpGo_lit hc, fwpGo_lit hc, hrec]

end PatternLemmas

/-- C10: pattern output shape.  For a string `format` `f` (with a mask
whose per-position fill strings are single characters, the documented
contract), `formatWithPattern s` has exactly `f.length` characters; every
non-`#` position carries the pattern's own character, the k-th `#`
position carries `s[k]` when present and otherwise the mask character for
index `k`; and digits of `s` beyond the number of `#` placeholders have no
effect on the output. -/
theorem formatWithPattern_shape (cfg : CFConfig) (f s : List Char)
    (hf : cfg.format = some f)
    (hm : ∀ i, (getMaskAtIndex cfg i).length = 1) :
    (formatWithPattern cfg s).length = f.length ∧
    (∀ i, i < f.length →
      (formatWithPattern cfg s).get? i =
        (if f.get? i = some '#' then
          (match s.get? ((f.take i).count '#') with
           | some ch => some ch
           | none => (getMaskAtIndex cfg ((f.take i).count '#')).head?)
         else f.get? i)) ∧
    formatWithPattern cfg s = formatWithPattern cfg (s.take (f.count '#')) := by
  have hunf : ∀ t : List Char, formatWithPattern cfg t = fwpGo cfg t f 0 := by
    intro t
    simp [formatWithPattern, hf]
  refine ⟨?_, ?_, ?_⟩
  · rw [hunf]
    exact fwpGo_length hm f 0
  · intro i hi
    rw [hunf, fwpGo_get? hm f 0 i]
    cases hfi : f.get? i with
    | none =>
      have : f.length ≤ i := List.get?_eq_none.mp hfi
      omega
    | some c =>
      by_cases h : c = '#'
      · subst h
        simp [Nat.zero_add]
      · simp [h]
  · rw [hunf, hunf]
    exact fwpGo_congr f 0 (fun k hk1 hk2 => (get?_take_lt (by omega)).symm)

/-- Witness for C10 at the phone-number pattern of the spec,
`"+1 (###) ###-####"` with mask `"_"` and input `"555"`. -/
theorem formatWithPattern_shape_witness :
    (∀ i, (getMaskAtIndex
      { format := some (str "+1 (###) ###-####"), mask := Mask.strM ['_'] }
      i).length = 1) ∧
    (formatWithPattern
      { format := some (str "+1 (###) ###-####"), mask := Mask.strM ['_'] }
      (str "555")).length = (str "+1 (###) ###-####").length ∧
    formatWithPattern
      { format := some (str "+1 (###) ###-####"), mask := Mask.strM ['_'] }
      (str "555") = str "+1 (555) ___-____" := by
  have hmw : ∀ i, (getMaskAtIndex
      { format := some (str "+1 (###) ###-####"), mask := Mask.strM ['_'] }
      i).length = 1 := fun i => rfl
  refine ⟨hmw, ?_, by decide⟩
  exact (formatWithPattern_shape _ (str "+1 (###) ###-####") (str "555") rfl
    hmw).1

section DeletionLemmas

lemma isPrefixOf_length_le {l1 l2 : List Char} (h : l1.isPrefixOf l2 = true) :
    l1.length ≤ l2.length :=
  (List.isPrefixOf_iff_prefix.mp h).length_le

lemma isPrefixOf_self (l : List Char) : l.isPrefixOf l = true :=
  List.isPrefixOf_iff_prefix.mpr (List.prefix_refl l)

lemma lastIdxAux_drop (l : List Char) (k : Nat) (hk : k ≤ l.length) :
    ∀ j, k ≤ j → j ≤ l.length → lastIdxAux l (l.drop k) j = (k : Int) := by
  intro j
  induction j with
  | zero =>
    intro h0 _
    have hk0 : k = 0 := by omega
    subst hk0
    simp [lastIdxAux, isPrefixOf_self]
  | succ j ih =>
    intro hkj hjl
    by_cases he : k = j + 1
    · subst he
      simp [lastIdxAux, isPrefixOf_self]
    · have hlt : k ≤ j := by omega
      have hfalse : (l.drop k).isPrefixOf (l.drop (j + 1)) = false := by
        by_contra hcon
        have htrue : (l.drop k).isPrefixOf (l.drop (j + 1)) = true := by
          revert hcon
          cases (l.drop k).isPrefixOf (l.drop (j + 1)) <;> simp
        have hle := isPrefixOf_length_le htrue
        rw [List.length_drop, List.length_drop] at hle
        omega
      simp only [lastIdxAux, hfalse]
      norm_num
      exact ih hlt (by omega)

lemma jsLastIndexOf_drop (l : List Char) (k : Nat) (hk : k ≤ l.length) :
    jsLastIndexOf l (l.drop k) = (k : Int) :=
  lastIdxAux_drop l k hk l.length hk le_rfl

end DeletionLemmas

/-- C6 (amended): protected-zone deletion is a no-op provided the edited
text stays nonempty.  If an edit removes exactly the span `[a, b)` of the
previous formatted text (caret at `a` afterwards), the result is nonempty,
every removed index is a format character (`isCharacterAFormat`), and
`numAsString` is the raw counterpart of the previous text (the state
invariant), then `correctInputValue` returns the previous formatted text
verbatim. -/
theorem protected_deletion_amended (cfg : CFConfig) (lastValue : List Char)
    (a b : Nat) (numAsString : List Char)
    (hab : a < b) (hble : b ≤ lastValue.length)
    (hne : lastValue.take a ++ lastValue.drop b ≠ [])
    (hprot : ∀ i, a ≤ i → i < b → isCharacterAFormat cfg i lastValue = true)
    (hnum : numAsString = removeFormatting cfg lastValue) :
    correctInputValue cfg numAsString a lastValue
      (lastValue.take a ++ lastValue.drop b) = lastValue := by
  set value := lastValue.take a ++ lastValue.drop b with hv
  have hlena : (lastValue.take a).length = a := by
    rw [List.length_take]; omega
  have hlen : value.length < lastValue.length := by
    rw [hv, List.length_append, List.length_drop, hlena]; omega
  have hdropa : value.drop a = lastValue.drop b := by
    rw [hv]
    have h2 := List.drop_left (lastValue.take a) (lastValue.drop b)
    rw [hlena] at h2
    exact h2
  have hdropdrop : lastValue.drop b = (lastValue.drop a).drop (b - a) := by
    rw [List.drop_drop]; congr 1; omega
  have hlidx : jsLastIndexOf (lastValue.drop a) (lastValue.drop b) =
      ((b - a : Nat) : Int) := by
    rw [hdropdrop]
    exact jsLastIndexOf_drop _ _ (by rw [List.length_drop]; omega)
  have hdifflen : ((lastValue.drop a).take (((b - a : Nat) : Int).toNat)).length
      = b - a := by
    rw [Int.toNat_natCast, List.length_take, List.length_drop]
    omega
  have hchk : checkIfFormatGotDeleted cfg a
      (a + ((lastValue.drop a).take (((b - a : Nat) : Int).toNat)).length)
      lastValue = true := by
    rw [hdifflen]
    unfold checkIfFormatGotDeleted
    rw [List.any_eq_true]
    refine ⟨a, ?_, hprot a le_rfl hab⟩
    rw [List.mem_range']
    exact ⟨0, by omega, by omega⟩
  have hneq : ((b - a : Nat) : Int) ≠ -1 := by omega
  unfold correctInputValue
  rw [if_neg (by
    simp only [Bool.or_eq_true, decide_eq_true_eq, not_or]
    exact ⟨by omega, hne⟩)]
  simp only [splitString]
  rw [hdropa, hlidx, if_pos hneq, if_pos hchk]
  by_cases hf : cfg.format = none
  · rw [if_pos hf, ← hnum]
    rw [if_neg (by
      simp only [Bool.and_eq_true, decide_eq_true_eq]
      intro hcon
      exact absurd hcon.1.1 (by omega))]
  · rw [if_neg hf]

/-- Witness for C6: deleting the protected `"$"` of `"$1,234"` (prefix
`"$"`, raw value `"1234"`) restores `"$1,234"`. -/
theorem protected_deletion_amended_witness :
    0 < 1 ∧ 1 ≤ (str "$1,234").length ∧
    (str "$1,234").take 0 ++ (str "$1,234").drop 1 ≠ [] ∧
    (∀ i, 0 ≤ i → i < 1 →
      isCharacterAFormat { pfx := str "$" } i (str "$1,234") = true) ∧
    str "1234" = removeFormatting { pfx := str "$" } (str "$1,234") ∧
    correctInputValue { pfx := str "$" } (str "1234") 0 (str "$1,234")
      ((str "$1,234").take 0 ++ (str "$1,234").drop 1) = str "$1,234" := by
  refine ⟨by decide, by decide, by decide, ?_, by decide, ?_⟩
  · intro i h0 h1
    interval_cases i
    decide
  · exact protected_deletion_amended { pfx := str "$" } (str "$1,234") 0 1
      (str "1234") (by decide) (by decide) (by decide)
      (by intro i h0 h1; interval_cases i; decide) (by decide)

section IdempotenceLemmas

lemma removePrefixAndSuffix_id {cfg : CFConfig} (hp : cfg.pfx = [])
    (hs : cfg.sfx = []) (val : List Char) :
    removePrefixAndSuffix cfg val = val := by
  cases val with
  | nil => simp [removePrefixAndSuffix]
  | cons c cs =>
    by_cases hfmt : cfg.format = none
    · by_cases hcneg : c = '-'
      · subst hcneg
        simp [removePrefixAndSuffix, hp, hs, hfmt]
      · simp [removePrefixAndSuffix, hp, hs, hfmt, hcneg]
    · simp [removePrefixAndSuffix, hfmt]

lemma rawStr_hasNeg (neg : Bool) (I : List Char) (dotF : Option (List Char))
    (hI : AllDigits I) :
    decide ((rawStr neg I dotF).head? = some '-') = neg := by
  cases neg with
  | true => simp [rawStr]
  | false =>
    cases I with
    | cons c cs =>
      have h1 : rawStr false (c :: cs) dotF =
          c :: (cs ++ (match dotF with
                       | some F => '.' :: F
                       | none => [])) := by
        cases dotF <;> simp [rawStr]
      rw [h1]
      simpa using digit_ne_neg (hI c (by simp))
    | nil =>
      cases dotF with
      | none => simp [rawStr]
      | some F => simp [rawStr]

lemma rawStr_false_cons (I : List Char) (dotF : Option (List Char)) :
    rawStr true I dotF = '-' :: rawStr false I dotF := by
  cases dotF <;> simp [rawStr]

lemma rawStr_removeNeg (neg : Bool) (I : List Char) (dotF : Option (List Char))
    (hI : AllDigits I) (hF : ∀ F, dotF = some F → AllDigits F) :
    jsRemoveFirstChar '-' (rawStr neg I dotF) = rawStr false I dotF := by
  cases neg with
  | true =>
    rw [rawStr_false_cons]
    simp [jsRemoveFirstChar]
  | false =>
    apply jsRemoveFirstChar_not_mem
    intro hmem
    cases dotF with
    | none =>
      rw [show rawStr false I none = I from by simp [rawStr]] at hmem
      exact digit_ne_neg (hI _ hmem) rfl
    | some F =>
      rw [show rawStr false I (some F) = I ++ '.' :: F from by simp [rawStr]]
        at hmem
      rcases List.mem_append.mp hmem with h1 | h2
      · exact digit_ne_neg (hI _ h1) rfl
      · rcases List.mem_cons.mp h2 with h3 | h4
        · exact absurd h3.symm (by decide)
        · exact digit_ne_neg (hF F rfl _ h4) rfl

lemma rawStr_contains_dot (neg : Bool) (I : List Char)
    (dotF : Option (List Char)) (hI : AllDigits I) :
    (rawStr neg I dotF).contains '.' = decide (dotF ≠ none) := by
  rw [contains_eq_mem]
  cases dotF with
  | some F =>
    have hm : '.' ∈ rawStr neg I (some F) := by
      cases neg <;> simp [rawStr]
    simpa using hm
  | none =>
    have hm : '.' ∉ rawStr neg I none := by
      intro hmem
      cases neg with
      | true =>
        rw [rawStr_false_cons] at hmem
        rcases List.mem_cons.mp hmem with h1 | h2
        · exact absurd h1 (by decide)
        · rw [show rawStr false I none = I from by simp [rawStr]] at h2
          exact digit_ne_dot (hI _ h2) rfl
      | false =>
        rw [show rawStr false I none = I from by simp [rawStr]] at hmem
        exact digit_ne_dot (hI _ hmem) rfl
    simpa using hm

lemma splitDecimal_raw (cfg : CFConfig) (neg : Bool) (I : List Char)
    (dotF : Option (List Char)) (hI : AllDigits I)
    (hF : ∀ F, dotF = some F → AllDigits F) :
    splitDecimal cfg (rawStr neg I dotF) =
      { beforeDecimal := I, afterDecimal := dotF.getD [],
        hasNegation := decide ((rawStr neg I dotF).head? = some '-'),
        addNegation := decide ((rawStr neg I dotF).head? = some '-') &&
          cfg.allowNegative } := by
  unfold splitDecimal
  rw [show jsRemoveFirstChar '-' (rawStr neg I dotF) = rawStr false I dotF from
    rawStr_removeNeg neg I dotF hI hF]
  dsimp only
  cases dotF with
  | none =>
    have hx : rawStr false I none = I := by simp [rawStr]
    rw [hx, jsSplitPart0_digits hI, jsSplitPart1_digits hI]
    rfl
  | some F =>
    have hFd : AllDigits F := hF F rfl
    have hx : rawStr false I (some F) = I ++ '.' :: F := by simp [rawStr]
    rw [hx, jsSplitPart0_dot hI, jsSplitPart1_dot hI hFd]
    rfl

lemma limitToScale_zero (l : List Char) (fx : Bool) :
    limitToScale l 0 fx = [] := by
  cases l <;> rfl

lemma limitToScale_digits :
    ∀ (k : Nat) (l : List Char) (fx : Bool), AllDigits l →
    AllDigits (limitToScale l k fx) := by
  intro k
  induction k with
  | zero =>
    intro l fx _ c hc
    rw [limitToScale_zero] at hc
    simp at hc
  | succ k ih =>
    intro l fx hl
    cases l with
    | nil =>
      intro d hd
      cases fx with
      | false => simp [limitToScale] at hd
      | true =>
        rw [show limitToScale [] (k + 1) true = '0' :: limitToScale [] k true
          from rfl] at hd
        rcases List.mem_cons.mp hd with h1 | h2
        · rw [h1]; decide
        · exact ih [] true (fun e he => absurd he (by simp)) d h2
    | cons y ys =>
      intro d hd
      rw [show limitToScale (y :: ys) (k + 1) fx = y :: limitToScale ys k fx
        from rfl] at hd
      rcases List.mem_cons.mp hd with h1 | h2
      · rw [h1]; exact hl y (by simp)
      · exact ih ys fx (fun e he => hl e (by simp [he])) d h2

lemma limitToScale_idem (fx : Bool) :
    ∀ (k : Nat) (l : List Char),
    limitToScale (limitToScale l k fx) k fx = limitToScale l k fx := by
  intro k
  induction k with
  | zero =>
    intro l
    simp [limitToScale_zero]
  | succ k ih =>
    intro l
    cases l with
    | nil =>
      cases fx with
      | false => rfl
      | true =>
        rw [show limitToScale [] (k + 1) true = '0' :: limitToScale [] k true
          from rfl]
        rw [show ∀ z, limitToScale ('0' :: z) (k + 1) true =
          '0' :: limitToScale z k true from fun z => rfl]
        rw [ih]
    | cons y ys =>
      rw [show limitToScale (y :: ys) (k + 1) fx = y :: limitToScale ys k fx
        from rfl]
      rw [show ∀ z, limitToScale (y :: z) (k + 1) fx =
        y :: limitToScale z k fx from fun z => rfl]
      rw [ih]

end IdempotenceLemmas

section IdempotenceCore

lemma formatAsNumber_raw (cfg : CFConfig)
    (hd : cfg.decimalSeparator = '.') (hts : cfg.thousandSeparator = TS.boolTrue)
    (hp : cfg.pfx = []) (hs : cfg.sfx = [])
    (neg : Bool) (I : List Char) (dotF : Option (List Char))
    (hI : AllDigits I) (hF : ∀ F, dotF = some F → AllDigits F)
    (hmain : I ≠ [] ∨ dotF ≠ none) :
    formatAsNumber cfg (rawStr neg I dotF) =
      (if neg && cfg.allowNegative then ['-'] else []) ++
      formatThousand cfg.thousandSpacing ',' (if I = [] then ['0'] else I) ++
      (if (decide (dotF ≠ none) ||
          (scaleTruthy cfg.decimalScale && cfg.fixedDecimalScale)) then ['.']
       else []) ++
      (match cfg.decimalScale with
       | some k => limitToScale (dotF.getD []) k cfg.fixedDecimalScale
       | none => dotF.getD []) := by
  have hsd := splitDecimal_raw cfg neg I dotF hI hF
  have hct := rawStr_contains_dot neg I dotF hI
  have hhn := rawStr_hasNeg neg I dotF hI
  have hres : resolvedTSep cfg = some ',' := by simp [resolvedTSep, hts]
  unfold formatAsNumber
  rw [hsd, hct, hhn, hres, hd, hp, hs]
  dsimp only
  by_cases hIe : I = []
  · have hdot : dotF ≠ none := by
      rcases hmain with h | h
      · exact absurd hIe h
      · exact h
    subst hIe
    cases hb : (neg && cfg.allowNegative) <;> simp [hdot, List.append_assoc]
  · cases hb : (neg && cfg.allowNegative) <;>
      cases hdec : (decide (dotF ≠ none) ||
        (scaleTruthy cfg.decimalScale && cfg.fixedDecimalScale)) <;>
      simp [hIe, List.append_assoc]

lemma limitToScale_nil_false (k : Nat) : limitToScale [] k false = [] := by
  cases k <;> rfl

lemma numRegexMatches_digit {cfg : CFConfig} {c : Char} (hc : c.isDigit = true) :
    numRegexMatches cfg false c = true := by
  simp [numRegexMatches, hc]

lemma numRegexMatches_comma {cfg : CFConfig} (hd : cfg.decimalSeparator = '.') :
    numRegexMatches cfg false ',' = false := by
  simp [numRegexMatches, hd]

lemma numRegexMatches_dot {cfg : CFConfig} (hd : cfg.decimalSeparator = '.')
    (hf : cfg.format = none) (hsc : cfg.decimalScale ≠ some 0) :
    numRegexMatches cfg false '.' = true := by
  simp [numRegexMatches, hd, hf, hsc]

lemma filter_digits_self {p : Char → Bool} {l : List Char}
    (hl : AllDigits l) (hp : ∀ c, c.isDigit = true → p c = true) :
    l.filter p = l :=
  List.filter_eq_self.mpr (fun c hc => hp c (hl c hc))

lemma getFloatString_eq (cfg : CFConfig) (V : List Char) :
    getFloatString cfg V =
      if V.head? = some '-' then
        '-' :: keepFirstDotRemoving cfg.decimalSeparator
          (jsReplaceFirstChar cfg.decimalSeparator '.'
            ((jsRemoveFirstChar '-' V).filter (numRegexMatches cfg false)))
      else
        keepFirstDotRemoving cfg.decimalSeparator
          (jsReplaceFirstChar cfg.decimalSeparator '.'
            (V.filter (numRegexMatches cfg false))) := by
  unfold getFloatString
  dsimp only
  by_cases h : V.head? = some '-' <;> simp [h]

lemma head?_triple_append {G D A : List Char} (hG : G ≠ []) :
    (G ++ D ++ A).head? = G.head? := by
  rw [List.head?_append, List.head?_append]
  cases hG2 : G.head? with
  | some b => rfl
  | none =>
    rw [List.head?_eq_none_iff] at hG2
    exact absurd hG2 hG

lemma removeFormatting_formatted (cfg : CFConfig)
    (hd : cfg.decimalSeparator = '.')
    (hp : cfg.pfx = []) (hs : cfg.sfx = []) (hf : cfg.format = none)
    (hsc : cfg.decimalScale ≠ some 0)
    (sp : Spacing) (negb : Bool) (B A : List Char) (hasD : Bool)
    (hB : AllDigits B) (hBne : B ≠ []) (hA : AllDigits A)
    (hAe : hasD = false → A = []) :
    removeFormatting cfg
      ((if negb then ['-'] else []) ++ formatThousand sp ',' B ++
        (if hasD then ['.'] else []) ++ A) =
      (if negb then ['-'] else []) ++ B ++ (if hasD then '.' :: A else []) := by
  have hGne : formatThousand sp ',' B ≠ [] := formatThousand_ne_nil hBne
  have hGhead : (formatThousand sp ',' B).head? = B.head? := formatThousand_head? hBne
  have hne : (if negb then ['-'] else []) ++ formatThousand sp ',' B ++
      (if hasD then ['.'] else []) ++ A ≠ [] := by
    intro hcontra
    rw [List.append_assoc, List.append_assoc, List.append_eq_nil] at hcontra
    rw [List.append_eq_nil] at hcontra
    exact hGne hcontra.2.1
  have hfilter : (formatThousand sp ',' B ++ (if hasD then ['.'] else []) ++
      A).filter (numRegexMatches cfg false) =
      B ++ (if hasD then ['.'] else []) ++ A := by
    rw [List.filter_append, List.filter_append]
    rw [formatThousand_filter (numRegexMatches_comma hd)]
    rw [filter_digits_self hB (fun c hc => numRegexMatches_digit hc)]
    rw [filter_digits_self hA (fun c hc => numRegexMatches_digit hc)]
    congr 1
    cases hasD with
    | true =>
      simp only [if_true]
      rw [show (['.'] : List Char).filter (numRegexMatches cfg false) =
        ['.'] from by simp [List.filter_cons, numRegexMatches_dot hd hf hsc]]
    | false => simp
  have hkeep : keepFirstDotRemoving '.' (B ++ (if hasD then ['.'] else []) ++ A)
      = B ++ (if hasD then '.' :: A else []) := by
    have hBdot : '.' ∉ B := fun hc => absurd rfl (digit_ne_dot (hB '.' hc))
    cases hasD with
    | true =>
      rw [show B ++ (if true then ['.'] else []) ++ A = B ++ '.' :: A from by
        simp]
      rw [show B ++ (if true then '.' :: A else []) = B ++ '.' :: A from by
        simp]
      exact keepFirstDotRemoving_append hBdot
        (fun hc => absurd rfl (digit_ne_dot (hA '.' hc)))
    | false =>
      rw [hAe rfl]
      simpa using keepFirstDotRemoving_not_mem hBdot
  unfold removeFormatting
  rw [if_neg hne, hf]
  dsimp only
  rw [removePrefixAndSuffix_id hp hs, getFloatString_eq]
  cases negb with
  | false =>
    rw [show (if false then ['-'] else []) ++ formatThousand sp ',' B ++
        (if hasD then ['.'] else []) ++ A =
        formatThousand sp ',' B ++ (if hasD then ['.'] else []) ++ A from by
      simp]
    have hhd : (formatThousand sp ',' B ++ (if hasD then ['.'] else []) ++
        A).head? ≠ some '-' := by
      rw [head?_triple_append hGne, hGhead]
      cases B with
      | nil => exact absurd rfl hBne
      | cons c cs =>
        simp only [List.head?_cons, ne_eq, Option.some.injEq]
        exact fun hcc => digit_ne_neg (hB c (by simp)) hcc
    rw [if_neg hhd, hd, hfilter, jsReplaceFirstChar_self, hkeep]
    simp
  | true =>
    rw [show (if true then ['-'] else []) ++ formatThousand sp ',' B ++
        (if hasD then ['.'] else []) ++ A =
        '-' :: (formatThousand sp ',' B ++ (if hasD then ['.'] else []) ++ A)
        from by simp]
    rw [if_pos rfl]
    rw [show jsRemoveFirstChar '-' ('-' :: (formatThousand sp ',' B ++
        (if hasD then ['.'] else []) ++ A)) = formatThousand sp ',' B ++
        (if hasD then ['.'] else []) ++ A from by simp [jsRemoveFirstChar]]
    rw [hd, hfilter, jsReplaceFirstChar_self, hkeep]
    simp

lemma formatNumString_raw (cfg : CFConfig) (hf : cfg.format = none)
    (neg : Bool) (I : List Char) (dotF : Option (List Char))
    (hI : AllDigits I) (hmain : I ≠ [] ∨ dotF ≠ none) :
    formatNumString cfg (rawStr neg I dotF) =
      formatAsNumber cfg (rawStr neg I dotF) := by
  obtain ⟨c, hcmem, hcp⟩ :
      ∃ c, c ∈ rawStr neg I dotF ∧ (c.isDigit = true ∨ c = '.') := by
    rcases hmain with hIne | hdne
    · cases I with
      | nil => exact absurd rfl hIne
      | cons a as =>
        refine ⟨a, ?_, Or.inl (hI a (by simp))⟩
        cases neg <;> cases dotF <;> simp [rawStr]
    · cases dotF with
      | none => exact absurd rfl hdne
      | some F =>
        refine ⟨'.', ?_, Or.inr rfl⟩
        cases neg <;> simp [rawStr]
  have hxne : rawStr neg I dotF ≠ [] := List.ne_nil_of_mem hcmem
  have hxnm : rawStr neg I dotF ≠ ['-'] := by
    intro hx
    rw [hx] at hcmem
    simp only [List.mem_singleton] at hcmem
    subst hcmem
    rcases hcp with hd2 | hd2
    · exact digit_ne_neg hd2 rfl
    · exact absurd hd2 (by decide)
  unfold formatNumString
  rw [if_neg hxne, if_neg (by simp [hxnm]), hf]

lemma rawStr_of_parts (negb : Bool) (B A : List Char) (hasD : Bool) :
    (if negb then ['-'] else []) ++ B ++ (if hasD then '.' :: A else []) =
      rawStr negb B (if hasD then some A else none) := by
  cases hasD <;> simp [rawStr]

lemma formatAsNumber_fixed (cfg : CFConfig)
    (hd : cfg.decimalSeparator = '.') (hts : cfg.thousandSeparator = TS.boolTrue)
    (hp : cfg.pfx = []) (hs : cfg.sfx = [])
    (negb : Bool) (B A : List Char) (hasD : Bool)
    (hB : AllDigits B) (hBne : B ≠ []) (hA : AllDigits A)
    (han : negb = true → cfg.allowNegative = true)
    (hAe : hasD = false → A = [])
    (hDstable : hasD = false →
      (scaleTruthy cfg.decimalScale && cfg.fixedDecimalScale) = false)
    (hAstable : (match cfg.decimalScale with
       | some k => limitToScale A k cfg.fixedDecimalScale
       | none => A) = A) :
    formatAsNumber cfg (rawStr negb B (if hasD then some A else none)) =
      (if negb then ['-'] else []) ++
      formatThousand cfg.thousandSpacing ',' B ++
      (if hasD then ['.'] else []) ++ A := by
  have hband : (negb && cfg.allowNegative) = negb := by
    cases negb with
    | true => rw [han rfl, Bool.and_self]
    | false => rw [Bool.false_and]
  cases hasD with
  | true =>
    rw [show (if true then some A else none) = some A from rfl]
    rw [formatAsNumber_raw cfg hd hts hp hs negb B (some A) hB
      (fun F hFe => by cases hFe; exact hA) (Or.inl hBne)]
    rw [hband, if_neg hBne]
    rw [show (decide ((some A : Option (List Char)) ≠ none) ||
      (scaleTruthy cfg.decimalScale && cfg.fixedDecimalScale)) = true from by
      simp]
    rw [show (Option.getD (some A) ([] : List Char)) = A from rfl]
    rw [hAstable]
  | false =>
    rw [show (if false then some A else none) = (none : Option (List Char))
      from rfl]
    rw [formatAsNumber_raw cfg hd hts hp hs negb B none hB
      (fun F hFe => absurd hFe (by simp)) (Or.inl hBne)]
    rw [hband, if_neg hBne]
    rw [show (decide ((none : Option (List Char)) ≠ none) ||
      (scaleTruthy cfg.decimalScale && cfg.fixedDecimalScale)) =
      (scaleTruthy cfg.decimalScale && cfg.fixedDecimalScale) from by simp]
    rw [hDstable rfl, hAe rfl]
    congr 1
    cases hscale : cfg.decimalScale with
    | none => rfl
    | some k =>
      show limitToScale (Option.getD none []) k cfg.fixedDecimalScale = []
      cases hfx : cfg.fixedDecimalScale with
      | false => exact limitToScale_nil_false k
      | true =>
        have hsT := hDstable rfl
        rw [hscale, hfx, Bool.and_true] at hsT
        have hk : k = 0 := by
          by_contra hk0
          simp [scaleTruthy, hk0] at hsT
        rw [hk]
        exact limitToScale_zero _ _

lemma formatNumString_nil (cfg : CFConfig) (hp : cfg.pfx = [])
    (hs : cfg.sfx = []) (hf : cfg.format = none) :
    formatNumString cfg [] = [] := by
  unfold formatNumString
  rw [if_pos rfl, hf, hp, hs]
  by_cases he : cfg.allowEmptyFormatting <;> simp [he]

lemma removeFormatting_nil (cfg : CFConfig) : removeFormatting cfg [] = [] :=
  rfl

lemma formatNumString_minus (cfg : CFConfig) (hf : cfg.format = none) :
    formatNumString cfg ['-'] = ['-'] := by
  unfold formatNumString
  rw [if_neg (by simp), if_pos (by simp [hf])]

lemma removeFormatting_minus (cfg : CFConfig) (hp : cfg.pfx = [])
    (hs : cfg.sfx = []) (hf : cfg.format = none) :
    removeFormatting cfg ['-'] = ['-'] := by
  unfold removeFormatting
  rw [if_neg (by simp), hf]
  dsimp only
  rw [removePrefixAndSuffix_id hp hs, getFloatString_eq]
  rw [if_pos (show (['-'] : List Char).head? = some '-' from rfl)]
  rfl

/-- C3 (amended): re-formatting is idempotent for every canonical raw
numeric string (sign, digits, at most one decimal point — including the
empty string and a bare "-") in numeric mode with '.' and ',' separators,
no prefix or suffix, provided `decimalScale` is not 0:
`formatNumString (removeFormatting (formatNumString x)) = formatNumString x`. -/
theorem reformat_idempotence_amended (cfg : CFConfig)
    (hd : cfg.decimalSeparator = '.') (hts : cfg.thousandSeparator = TS.boolTrue)
    (hp : cfg.pfx = []) (hs : cfg.sfx = []) (hf : cfg.format = none)
    (hsc : cfg.decimalScale ≠ some 0)
    (neg : Bool) (I : List Char) (dotF : Option (List Char))
    (hI : AllDigits I) (hF : ∀ F, dotF = some F → AllDigits F) :
    formatNumString cfg (removeFormatting cfg
        (formatNumString cfg (rawStr neg I dotF))) =
      formatNumString cfg (rawStr neg I dotF) := by
  by_cases hmain : I ≠ [] ∨ dotF ≠ none
  · have hBdig : AllDigits (if I = [] then ['0'] else I) := by
      by_cases hIe : I = []
      · rw [if_pos hIe]
        intro c hc
        rw [List.mem_singleton] at hc
        subst hc
        decide
      · rw [if_neg hIe]
        exact hI
    have hBne : (if I = [] then ['0'] else I) ≠ [] := by
      by_cases hIe : I = []
      · rw [if_pos hIe]; simp
      · rw [if_neg hIe]; exact hIe
    have hgd : AllDigits (dotF.getD []) := by
      cases dotF with
      | none => intro c hc; simp at hc
      | some F => exact hF F rfl
    have hAdig : AllDigits (match cfg.decimalScale with
        | some k => limitToScale (dotF.getD []) k cfg.fixedDecimalScale
        | none => dotF.getD []) := by
      cases hscale : cfg.decimalScale with
      | none => exact hgd
      | some k => exact limitToScale_digits k _ _ hgd
    have hAe : (decide (dotF ≠ none) ||
        (scaleTruthy cfg.decimalScale && cfg.fixedDecimalScale)) = false →
        (match cfg.decimalScale with
         | some k => limitToScale (dotF.getD []) k cfg.fixedDecimalScale
         | none => dotF.getD []) = [] := by
      intro h0
      rw [Bool.or_eq_false_iff] at h0
      obtain ⟨h1, h2⟩ := h0
      have hdn : dotF = none := by
        cases dotF with
        | none => rfl
        | some F => simp at h1
      subst hdn
      cases hscale : cfg.decimalScale with
      | none => rfl
      | some k =>
        have hk : k ≠ 0 := fun hk0 => hsc (hk0 ▸ hscale)
        rw [hscale] at h2
        have hsT : scaleTruthy (some k) = true := by simp [scaleTruthy, hk]
        rw [hsT, Bool.true_and] at h2
        show limitToScale (Option.getD none []) k cfg.fixedDecimalScale = []
        rw [h2]
        exact limitToScale_nil_false k
    have h1 := (formatNumString_raw cfg hf neg I dotF hI hmain).trans
      (formatAsNumber_raw cfg hd hts hp hs neg I dotF hI hF hmain)
    have h2 := removeFormatting_formatted cfg hd hp hs hf hsc
      cfg.thousandSpacing (neg && cfg.allowNegative)
      (if I = [] then ['0'] else I)
      (match cfg.decimalScale with
       | some k => limitToScale (dotF.getD []) k cfg.fixedDecimalScale
       | none => dotF.getD [])
      (decide (dotF ≠ none) ||
        (scaleTruthy cfg.decimalScale && cfg.fixedDecimalScale))
      hBdig hBne hAdig hAe
    rw [h1, h2, rawStr_of_parts]
    rw [formatNumString_raw cfg hf (neg && cfg.allowNegative)
      (if I = [] then ['0'] else I) _ hBdig (Or.inl hBne)]
    refine formatAsNumber_fixed cfg hd hts hp hs (neg && cfg.allowNegative)
      (if I = [] then ['0'] else I) _ _ hBdig hBne hAdig ?_ hAe ?_ ?_
    · intro hok
      cases hAn : cfg.allowNegative with
      | true => rfl
      | false =>
        rw [hAn, Bool.and_false] at hok
        exact absurd hok (by simp)
    · intro h0
      rw [Bool.or_eq_false_iff] at h0
      exact h0.2
    · cases hscale : cfg.decimalScale with
      | none => rfl
      | some k => exact limitToScale_idem cfg.fixedDecimalScale k _
  · push_neg at hmain
    obtain ⟨hIe, hde⟩ := hmain
    subst hIe hde
    cases neg with
    | false =>
      rw [show rawStr false [] none = [] from rfl]
      rw [formatNumString_nil cfg hp hs hf, removeFormatting_nil,
        formatNumString_nil cfg hp hs hf]
    | true =>
      rw [show rawStr true [] none = ['-'] from rfl]
      rw [formatNumString_minus cfg hf, removeFormatting_minus cfg hp hs hf,
        formatNumString_minus cfg hf]

/-- Witness for C3 at the raw value "-12345.67" under the default numeric
configuration with `thousandSeparator := true`. -/
theorem reformat_idempotence_amended_witness :
    AllDigits ['1', '2', '3', '4', '5'] ∧
    formatNumString { thousandSeparator := TS.boolTrue }
        (removeFormatting { thousandSeparator := TS.boolTrue }
          (formatNumString { thousandSeparator := TS.boolTrue }
            (rawStr true ['1', '2', '3', '4', '5'] (some ['6', '7'])))) =
      formatNumString { thousandSeparator := TS.boolTrue }
        (rawStr true ['1', '2', '3', '4', '5'] (some ['6', '7'])) :=
  ⟨by decide,
    reformat_idempotence_amended { thousandSeparator := TS.boolTrue }
      rfl rfl rfl rfl rfl (by decide) true ['1', '2', '3', '4', '5']
      (some ['6', '7']) (by decide)
      (fun F hFe => by cases hFe; decide)⟩

section RoundtripLemmas

lemma isPrefixOf_append_right : ∀ (l t : List Char),
    l.isPrefixOf (l ++ t) = true
  | [], t => by simp [List.isPrefixOf]
  | c :: cs, t => by
    simp only [List.cons_append, List.isPrefixOf, beq_self_eq_true,
      Bool.true_and]
    exact isPrefixOf_append_right cs t

lemma isSuffixOf_append_right (s r : List Char) :
    s.isSuffixOf (r ++ s) = true := by
  unfold List.isSuffixOf
  rw [List.reverse_append]
  exact isPrefixOf_append_right s.reverse r.reverse

lemma grouped_ne_nil (ts : TS) (sp : Spacing) {I : List Char} (hIne : I ≠ []) :
    (match fmtResolvedTS ts with
     | some sep => formatThousand sp sep I
     | none => I) ≠ [] := by
  cases ts with
  | boolTrue => exact formatThousand_ne_nil hIne
  | boolFalse => exact hIne
  | ch e => exact formatThousand_ne_nil hIne

lemma grouped_head? (ts : TS) (sp : Spacing) {I : List Char} (hIne : I ≠ []) :
    (match fmtResolvedTS ts with
     | some sep => formatThousand sp sep I
     | none => I).head? = I.head? := by
  cases ts with
  | boolTrue => exact formatThousand_head? hIne
  | boolFalse => rfl
  | ch e => exact formatThousand_head? hIne

lemma grouped_filter_tsep (ts : TS) (sp : Spacing) {I : List Char}
    (hI : AllDigits I) (hu : (parseResolvedTS ts).isDigit = false) :
    (match fmtResolvedTS ts with
     | some sep => formatThousand sp sep I
     | none => I).filter (fun x => x ≠ parseResolvedTS ts) = I := by
  have hdig : I.filter (fun x => x ≠ parseResolvedTS ts) = I :=
    List.filter_eq_self.mpr (fun a ha => by
      simpa using ne_of_digit_of_not (hI a ha) (by simp [hu]))
  cases ts with
  | boolTrue =>
    show (formatThousand sp ',' I).filter (fun x => x ≠ parseResolvedTS TS.boolTrue) = I
    rw [formatThousand_filter (by simp [parseResolvedTS])]
    exact hdig
  | boolFalse => exact hdig
  | ch e =>
    show (formatThousand sp e I).filter (fun x => x ≠ parseResolvedTS (TS.ch e)) = I
    rw [formatThousand_filter (by simp [parseResolvedTS])]
    exact hdig

lemma formatCurrency_raw (o : FmtOpts) (hds : o.decimalScale = none)
    (han : o.allowNegative = true)
    (neg : Bool) (I : List Char) (dotF : Option (List Char))
    (hI : AllDigits I) (hF : ∀ F, dotF = some F → AllDigits F)
    (hIne : I ≠ []) :
    formatCurrency (rawStr neg I dotF) o =
      (if neg then ['-'] else []) ++
        (o.pfx ++
          ((match fmtResolvedTS o.thousandSeparator with
            | some sep => formatThousand o.thousandSpacing sep I
            | none => I) ++
           (if dotF ≠ none then o.decimalSeparator :: dotF.getD []
            else [])) ++
         o.sfx) := by
  obtain ⟨c, cs, hIcc⟩ : ∃ c cs, I = c :: cs := by
    cases I with
    | nil => exact absurd rfl hIne
    | cons c cs => exact ⟨c, cs, rfl⟩
  have hcdig : c.isDigit = true := by
    rw [hIcc] at hI
    exact hI c (by simp)
  have hdot : '.' ∉ I := fun hm => absurd rfl (digit_ne_dot (hI '.' hm))
  have hcont : I.contains '.' = false := by
    rw [contains_eq_mem]
    simpa using hdot
  have h2 : I.filter (fun x => x.isDigit || x = '.') = I :=
    List.filter_eq_self.mpr (fun a ha => by simp [hI a ha])
  have h4 : jsSplitPart0 '.' I = I := jsSplitPart0_digits hI
  have h6 : jsSplitPart1 '.' I = [] := jsSplitPart1_digits hI
  have h1 : I.head? ≠ some '-' := by
    rw [hIcc]
    simp [digit_ne_neg hcdig]
  cases dotF with
  | none =>
    have h3 : keepFirstDot I = I := keepFirstDot_not_mem hdot
    cases neg with
    | false =>
      have hv : rawStr false I none = I := by simp [rawStr]
      rw [hv]
      unfold formatCurrency
      rw [if_neg hIne, hds]
      dsimp only
      simp [h1, h2, h3, h4, h6, hdot, scaleTruthy, hIne]
    | true =>
      have hv : rawStr true I none = '-' :: I := by simp [rawStr]
      rw [hv]
      unfold formatCurrency
      rw [if_neg (List.cons_ne_nil _ _), hds]
      dsimp only
      simp [h2, h3, h4, h6, hdot, scaleTruthy, hIne, han]
  | some F =>
    have hFd : AllDigits F := hF F rfl
    have hFdot : '.' ∉ F := fun hm => absurd rfl (digit_ne_dot (hFd '.' hm))
    have h2b : (I ++ '.' :: F).filter (fun x => x.isDigit || x = '.') =
        I ++ '.' :: F :=
      List.filter_eq_self.mpr (fun a ha => by
        rcases List.mem_append.mp ha with h | h
        · simp [hI a h]
        · rcases List.mem_cons.mp h with h | h
          · simp [h]
          · simp [hFd a h])
    have h3b : keepFirstDot (I ++ '.' :: F) = I ++ '.' :: F :=
      keepFirstDot_append hdot hFdot
    have h4b : jsSplitPart0 '.' (I ++ '.' :: F) = I := jsSplitPart0_dot hI
    have h6b : jsSplitPart1 '.' (I ++ '.' :: F) = F := jsSplitPart1_dot hI hFd
    have hcontb : (I ++ '.' :: F).contains '.' = true := by
      rw [contains_eq_mem]
      simp
    cases neg with
    | false =>
      have hv : rawStr false I (some F) = I ++ '.' :: F := by simp [rawStr]
      rw [hv]
      unfold formatCurrency
      rw [if_neg (by simp [hIne]), hds]
      dsimp only
      simp [h1, h2b, h3b, h4b, h6b, scaleTruthy, hIne]
    | true =>
      have hv : rawStr true I (some F) = '-' :: (I ++ '.' :: F) := by
        simp [rawStr]
      rw [hv]
      unfold formatCurrency
      rw [if_neg (List.cons_ne_nil _ _), hds]
      dsimp only
      simp [h2b, h3b, h4b, h6b, scaleTruthy, hIne, han]

end RoundtripLemmas

lemma strip_pfx (pf R : List Char) :
    (if pf ≠ [] && jsStartsWith (pf ++ R) pf then (pf ++ R).drop pf.length
     else pf ++ R) = R := by
  by_cases hpfe : pf = []
  · subst hpfe
    simp
  · rw [show jsStartsWith (pf ++ R) pf = true from isPrefixOf_append_right pf R]
    simp [hpfe, List.drop_left]

lemma strip_sfx (sf B : List Char) :
    (if sf ≠ [] && jsEndsWith (B ++ sf) sf then
      (B ++ sf).take ((B ++ sf).length - sf.length)
     else B ++ sf) = B := by
  by_cases hsfe : sf = []
  · subst hsfe
    simp
  · rw [show jsEndsWith (B ++ sf) sf = true from isSuffixOf_append_right sf B]
    simp [hsfe, List.take_left]

lemma parseCurrency_of_formatted (d : Char) (ts : TS) (sp : Spacing)
    (pf sf : List Char) (neg : Bool) (I : List Char)
    (dotF : Option (List Char))
    (hI : AllDigits I) (hF : ∀ F, dotF = some F → AllDigits F) (hIne : I ≠ [])
    (hd : d.isDigit = false) (hu : (parseResolvedTS ts).isDigit = false)
    (hud : parseResolvedTS ts ≠ d) (hpf : pf.head? ≠ some '-') :
    (parseCurrency
      ((if neg then ['-'] else []) ++
        (pf ++
          ((match fmtResolvedTS ts with
            | some sep => formatThousand sp sep I
            | none => I) ++
           (if dotF ≠ none then d :: dotF.getD [] else [])) ++ sf))
      { decimalSeparator := d, thousandSeparator := ts, pfx := pf,
        sfx := sf }).value = rawStr neg I dotF := by
  obtain ⟨c, cs, hIcc⟩ : ∃ c cs, I = c :: cs := by
    cases I with
    | nil => exact absurd rfl hIne
    | cons c cs => exact ⟨c, cs, rfl⟩
  have hcdig : c.isDigit = true := by
    rw [hIcc] at hI
    exact hI c (by simp)
  have hGne := grouped_ne_nil ts sp hIne
  have hGhd := grouped_head? ts sp (I := I) hIne
  have hGfilt := grouped_filter_tsep ts sp hI hu
  set G := (match fmtResolvedTS ts with
    | some sep => formatThousand sp sep I
    | none => I) with hG
  have hdI : d ∉ I := fun hm => absurd (hI d hm) (by simp [hd])
  cases dotF with
  | none =>
    rw [if_neg (show ¬((none : Option (List Char)) ≠ none) from
      fun h => h rfl)]
    rw [List.append_nil]
    have hXne : (pf ++ G) ++ sf ≠ [] := by
      intro hc
      rw [List.append_eq_nil, List.append_eq_nil] at hc
      exact hGne hc.1.2
    have hXhd : ((pf ++ G) ++ sf).head? ≠ some '-' := by
      rw [List.head?_append, List.head?_append, hGhd, hIcc]
      cases pf with
      | nil =>
        rw [show ((([] : List Char).head?.or ((c :: cs).head?)).or sf.head?) =
          some c from rfl]
        simpa using digit_ne_neg hcdig
      | cons q qs =>
        rw [show ((((q :: qs) : List Char).head?.or ((c :: cs).head?)).or
          sf.head?) = some q from rfl]
        exact fun hq => hpf hq
    have hrep : (if d ≠ '.' then jsReplaceFirstChar d '.' I else I) = I := by
      by_cases hdd : d = '.'
      · rw [if_neg (fun h => h hdd)]
      · rw [if_pos hdd, jsReplaceFirstChar_not_mem hdI]
    have hfil : I.filter (fun x => x.isDigit || x = '.') = I :=
      List.filter_eq_self.mpr (fun a ha => by simp [hI a ha])
    cases neg with
    | false =>
      rw [show (if false then ['-'] else []) ++ ((pf ++ G) ++ sf) =
        (pf ++ G) ++ sf from by simp]
      unfold parseCurrency
      rw [if_neg hXne]
      dsimp only
      simp only [if_neg hXhd]
      rw [List.append_assoc pf G sf, strip_pfx pf (G ++ sf), strip_sfx sf G]
      rw [show jsRemoveAllChar (parseResolvedTS ts) G = I from hGfilt]
      rw [hrep, hfil]
      simp [rawStr]
    | true =>
      rw [show (if true then ['-'] else []) ++ ((pf ++ G) ++ sf) =
        '-' :: ((pf ++ G) ++ sf) from by simp]
      unfold parseCurrency
      rw [if_neg (List.cons_ne_nil _ _)]
      dsimp only
      simp only [if_pos (show ('-' :: ((pf ++ G) ++ sf)).head? = some '-'
        from rfl)]
      rw [show ('-' :: ((pf ++ G) ++ sf)).drop 1 = (pf ++ G) ++ sf from rfl]
      rw [List.append_assoc pf G sf, strip_pfx pf (G ++ sf), strip_sfx sf G]
      rw [show jsRemoveAllChar (parseResolvedTS ts) G = I from hGfilt]
      rw [hrep, hfil]
      simp [rawStr]
  | some F =>
    have hFd : AllDigits F := hF F rfl
    rw [if_pos (show (some F : Option (List Char)) ≠ none from by simp)]
    rw [show (some F).getD ([] : List Char) = F from rfl]
    have hXne : (pf ++ (G ++ d :: F)) ++ sf ≠ [] := by
      intro hc
      rw [List.append_eq_nil, List.append_eq_nil] at hc
      exact hGne (List.append_eq_nil.mp hc.1.2).1
    have hXhd : ((pf ++ (G ++ d :: F)) ++ sf).head? ≠ some '-' := by
      rw [List.head?_append, List.head?_append, List.head?_append, hGhd, hIcc]
      cases pf with
      | nil =>
        rw [show ((([] : List Char).head?.or (((c :: cs) : List Char).head?.or
          ((d :: F).head?))).or sf.head?) = some c from rfl]
        simpa using digit_ne_neg hcdig
      | cons q qs =>
        rw [show ((((q :: qs) : List Char).head?.or
          (((c :: cs) : List Char).head?.or ((d :: F).head?))).or sf.head?) =
          some q from rfl]
        exact fun hq => hpf hq
    have hrem : jsRemoveAllChar (parseResolvedTS ts) (G ++ d :: F) =
        I ++ d :: F := by
      show (G ++ d :: F).filter (fun x => x ≠ parseResolvedTS ts) = I ++ d :: F
      rw [List.filter_append, hGfilt]
      congr 1
      rw [List.filter_cons]
      rw [show (decide (d ≠ parseResolvedTS ts)) = true from by
        simp [Ne.symm hud]]
      simp only [if_true]
      congr 1
      exact List.filter_eq_self.mpr (fun a ha => by
        simpa using ne_of_digit_of_not (hFd a ha) (by simp [hu]))
    have hrep : (if d ≠ '.' then jsReplaceFirstChar d '.' (I ++ d :: F)
        else I ++ d :: F) = I ++ '.' :: F := by
      by_cases hdd : d = '.'
      · rw [if_neg (fun h => h hdd), hdd]
      · rw [if_pos hdd, jsReplaceFirstChar_append hdI]
    have hfil : (I ++ '.' :: F).filter (fun x => x.isDigit || x = '.') =
        I ++ '.' :: F :=
      List.filter_eq_self.mpr (fun a ha => by
        rcases List.mem_append.mp ha with h | h
        · simp [hI a h]
        · rcases List.mem_cons.mp h with h | h
          · simp [h]
          · simp [hFd a h])
    cases neg with
    | false =>
      rw [show (if false then ['-'] else []) ++ ((pf ++ (G ++ d :: F)) ++ sf) =
        (pf ++ (G ++ d :: F)) ++ sf from by simp]
      unfold parseCurrency
      rw [if_neg hXne]
      dsimp only
      simp only [if_neg hXhd]
      rw [List.append_assoc pf (G ++ d :: F) sf,
        strip_pfx pf ((G ++ d :: F) ++ sf), strip_sfx sf (G ++ d :: F)]
      rw [hrem, hrep, hfil]
      simp [rawStr]
    | true =>
      rw [show (if true then ['-'] else []) ++ ((pf ++ (G ++ d :: F)) ++ sf) =
        '-' :: ((pf ++ (G ++ d :: F)) ++ sf) from by simp]
      unfold parseCurrency
      rw [if_neg (List.cons_ne_nil _ _)]
      dsimp only
      simp only [if_pos (show ('-' :: ((pf ++ (G ++ d :: F)) ++ sf)).head? =
        some '-' from rfl)]
      rw [show ('-' :: ((pf ++ (G ++ d :: F)) ++ sf)).drop 1 =
        (pf ++ (G ++ d :: F)) ++ sf from rfl]
      rw [List.append_assoc pf (G ++ d :: F) sf,
        strip_pfx pf ((G ++ d :: F) ++ sf), strip_sfx sf (G ++ d :: F)]
      rw [hrem, hrep, hfil]
      simp [rawStr]

/-- C1 (amended): the round-trip `parseCurrency (formatCurrency x c) c`
recovers the canonical raw string `x` for every canonical raw value with a
nonempty integer digit part, whenever the configuration has no
`decimalScale`, `allowNegative` true, a non-digit decimal separator, a
thousand separator whose parse-side resolution is a non-digit character
different from the decimal separator, a prefix that does not start with
`'-'`, and an arbitrary suffix. -/
theorem roundtrip_amended (d : Char) (ts : TS) (sp : Spacing)
    (pf sf : List Char) (neg : Bool) (I : List Char)
    (dotF : Option (List Char))
    (hI : AllDigits I) (hF : ∀ F, dotF = some F → AllDigits F)
    (hIne : I ≠ [])
    (hd : d.isDigit = false)
    (hu : (parseResolvedTS ts).isDigit = false)
    (hud : parseResolvedTS ts ≠ d)
    (hpf : pf.head? ≠ some '-') :
    (parseCurrency
        (formatCurrency (rawStr neg I dotF)
          { decimalScale := none, decimalSeparator := d,
            thousandSeparator := ts, thousandSpacing := sp, pfx := pf,
            sfx := sf, fixedDecimalScale := false, allowNegative := true })
        { decimalSeparator := d, thousandSeparator := ts, pfx := pf,
          sfx := sf }).value = rawStr neg I dotF := by
  rw [formatCurrency_raw _ rfl rfl neg I dotF hI hF hIne]
  exact parseCurrency_of_formatted d ts sp pf sf neg I dotF hI hF hIne hd hu
    hud hpf

/-- Witness for C1 at the raw value "-1234.56" formatted with decimal
comma, '.' thousand separator and prefix "$". -/
theorem roundtrip_amended_witness :
    (',').isDigit = false ∧
    (parseResolvedTS (TS.ch '.')).isDigit = false ∧
    parseResolvedTS (TS.ch '.') ≠ ',' ∧
    (str "$").head? ≠ some '-' ∧
    (parseCurrency
        (formatCurrency (rawStr true (str "1234") (some (str "56")))
          { decimalScale := none, decimalSeparator := ',',
            thousandSeparator := TS.ch '.', thousandSpacing := Spacing.three,
            pfx := str "$", sfx := [], fixedDecimalScale := false,
            allowNegative := true })
        { decimalSeparator := ',', thousandSeparator := TS.ch '.',
          pfx := str "$", sfx := [] }).value
      = rawStr true (str "1234") (some (str "56")) :=
  ⟨by decide, by decide, by decide, by decide,
    roundtrip_amended ',' (TS.ch '.') Spacing.three (str "$") [] true
      (str "1234") (some (str "56")) (by decide)
      (fun F hFe => by cases hFe; decide) (by decide) (by decide) (by decide)
      (by decide) (by decide)⟩

section CarryLemmas

lemma digitVal_le {c : Char} (hc : c.isDigit = true) : digitVal c ≤ 9 := by
  simp only [Char.isDigit, Bool.and_eq_true, decide_eq_true_eq] at hc
  obtain ⟨h1, h2⟩ := hc
  have h2n : c.toNat ≤ 57 := h2
  unfold digitVal
  omega

lemma digitsToNat_foldl (l : List Char) : ∀ a : Nat,
    l.foldl (fun n c => n * 10 + digitVal c) a =
      a * 10 ^ l.length + digitsToNat l := by
  induction l with
  | nil => intro a; simp [digitsToNat]
  | cons c cs ih =>
    intro a
    rw [List.foldl_cons, ih (a * 10 + digitVal c)]
    have hc : digitsToNat (c :: cs) = digitVal c * 10 ^ cs.length +
        digitsToNat cs := by
      show List.foldl _ (0 * 10 + digitVal c) cs = _
      rw [ih (0 * 10 + digitVal c)]
      ring_nf
    rw [hc]
    simp [List.length_cons, pow_succ]
    ring

lemma digitsToNat_cons (c : Char) (l : List Char) :
    digitsToNat (c :: l) = digitVal c * 10 ^ l.length + digitsToNat l := by
  show List.foldl _ (0 * 10 + digitVal c) l = _
  rw [digitsToNat_foldl l (0 * 10 + digitVal c)]
  ring_nf

lemma digitsToNat_append (A B : List Char) :
    digitsToNat (A ++ B) = digitsToNat A * 10 ^ B.length + digitsToNat B := by
  show (A ++ B).foldl _ 0 = _
  rw [List.foldl_append]
  exact digitsToNat_foldl B (A.foldl _ 0)

lemma carryStep_val (acc : List Char) (d : Char) (k : Nat)
    (hacc : AllDigits acc) (hd : d.isDigit = true)
    (hlen : acc.length = k ∨ acc.length = k + 1) :
    digitsToNat (carryStep acc d k) = digitsToNat acc + digitVal d * 10 ^ k ∧
    AllDigits (carryStep acc d k) ∧
    ((carryStep acc d k).length = k + 1 ∨
      (carryStep acc d k).length = k + 2) := by
  rcases hlen with hlen | hlen
  · have hcond : ¬ acc.length > k := by omega
    unfold carryStep
    rw [if_neg hcond]
    refine ⟨?_, ?_, Or.inl (by simp [hlen])⟩
    · rw [digitsToNat_cons, hlen]
      ring
    · intro x hx
      rcases List.mem_cons.mp hx with h | h
      · subst h; exact hd
      · exact hacc x h
  · have hcond : acc.length > k := by omega
    obtain ⟨h, t, hht⟩ : ∃ h t, acc = h :: t := by
      cases acc with
      | nil => simp at hlen
      | cons h t => exact ⟨h, t, rfl⟩
    subst hht
    have htlen : t.length = k := by simpa using hlen
    have hhd : h.isDigit = true := hacc h (by simp)
    have htd : AllDigits t := fun x hx => hacc x (List.mem_cons_of_mem _ hx)
    have hs : digitVal h + digitVal d ≤ 18 := by
      have := digitVal_le hhd
      have := digitVal_le hd
      omega
    have hnd : digitsToNat (natToDigits (digitVal h + digitVal d)) =
        digitVal h + digitVal d := by
      set s := digitVal h + digitVal d with hsdef
      interval_cases s <;> decide
    have hndd : AllDigits (natToDigits (digitVal h + digitVal d)) := by
      set s := digitVal h + digitVal d with hsdef
      interval_cases s <;> decide
    have hndl : (natToDigits (digitVal h + digitVal d)).length = 1 ∨
        (natToDigits (digitVal h + digitVal d)).length = 2 := by
      set s := digitVal h + digitVal d with hsdef
      interval_cases s <;> decide
    unfold carryStep
    rw [if_pos hcond]
    refine ⟨?_, ?_, ?_⟩
    · rw [show ((h :: t).head?) = some h from rfl,
        show (h :: t).tail = t from rfl]
      rw [digitsToNat_append, digitsToNat_cons, htlen]
      rw [show digitValOpt (some h) = digitVal h from rfl, hnd]
      ring
    · intro x hx
      rw [show ((h :: t).head?) = some h from rfl,
        show (h :: t).tail = t from rfl] at hx
      rcases List.mem_append.mp hx with hx | hx
      · exact hndd x hx
      · exact htd x hx
    · rw [show ((h :: t).head?) = some h from rfl,
        show (h :: t).tail = t from rfl]
      rw [List.length_append, htlen]
      rw [show digitValOpt (some h) = digitVal h from rfl]
      rcases hndl with hh | hh <;> rw [hh] <;> omega

lemma carry_fold_val : ∀ (R acc : List Char) (k : Nat),
    AllDigits R → AllDigits acc →
    (acc.length = k ∨ acc.length = k + 1) →
    digitsToNat ((R.foldl
        (fun (p : List Char × Nat) d => (carryStep p.1 d p.2, p.2 + 1))
        (acc, k)).1) =
      digitsToNat acc + digitsToNat R.reverse * 10 ^ k := by
  intro R
  induction R with
  | nil =>
    intro acc k _ _ _
    simp [digitsToNat]
  | cons d R ih =>
    intro acc k hR hacc hlen
    have hd : d.isDigit = true := hR d (by simp)
    have hR2 : AllDigits R := fun x hx => hR x (List.mem_cons_of_mem _ hx)
    obtain ⟨hval, hdig, hlen2⟩ := carryStep_val acc d k hacc hd hlen
    rw [List.foldl_cons]
    rw [show (carryStep (acc, k).1 d (acc, k).2, (acc, k).2 + 1) =
      (carryStep acc d k, k + 1) from rfl]
    rw [ih (carryStep acc d k) (k + 1) hR2 hdig hlen2]
    rw [hval]
    rw [List.reverse_cons, digitsToNat_append]
    simp only [List.length_singleton]
    rw [show digitsToNat [d] = digitVal d from by
      simp [digitsToNat, digitVal]]
    ring

end CarryLemmas

/-- C5: the integer-part carry propagation of `roundToPrecision` (the
`reduce` over the reversed integer digits seeded with the rounded
fraction's integer digit) is exact decimal long addition: starting from a
single carry digit `c` ('0' or '1'), the resulting digit string denotes
`Number(intPart) + Number(c)`. -/
theorem roundToPrecision_intPart_carry (I : List Char) (c : Char)
    (hI : AllDigits I) (hc : c = '0' ∨ c = '1') :
    digitsToNat (intCarry I [c]) = digitsToNat I + digitVal c := by
  unfold intCarry
  rw [carry_fold_val I.reverse [c] 0
    (fun x hx => hI x (List.mem_reverse.mp hx))
    (by rcases hc with h | h <;> subst h <;> decide) (Or.inr rfl)]
  rw [List.reverse_reverse]
  rw [show digitsToNat [c] = digitVal c from by simp [digitsToNat, digitVal]]
  ring

/-- Witness for C5's carry theorem: adding the carry 1 to the integer part
"1299" yields a digit string denoting 1300. -/
theorem roundToPrecision_intPart_carry_witness :
    AllDigits (str "1299") ∧ ('1' = '0' ∨ '1' = '1') ∧
    digitsToNat (intCarry (str "1299") ['1']) =
      digitsToNat (str "1299") + digitVal '1' :=
  ⟨by decide, Or.inr rfl,
    roundToPrecision_intPart_carry (str "1299") '1' (by decide)
      (Or.inr rfl)⟩
